import Mathlib

/-!
Verification of the SVG book-reader pipeline (`src/utils/fileUtils.ts`,
`src/components/BookReader.tsx`, the app component) against its
natural-language specification.

The TypeScript source is shallowly embedded below.  Host primitives
(`FileReader`, `DOMParser`, directory readers, `decodeURIComponent`,
`localeCompare`, …) are modelled explicitly: asynchronous host reads become
pre-resolved `Except` values, the DOM becomes an explicit tree type, and the
JS string operations used by the source are re-implemented character-wise
over `List Char` (ASCII case folding; a percent escape decodes to the single
code point named by its two hex digits).
-/

namespace BookPipeline

/-! ## JS string primitives (character-level models) -/

/-- Model of the JS `\s` character class (the whitespace characters relevant
to this pipeline: ASCII whitespace, NBSP and the BOM). -/
def jsWhitespace (c : Char) : Bool :=
  c == ' ' || c == '\t' || c == '\n' || c == '\r' ||
  c == Char.ofNat 0x0b || c == Char.ofNat 0x0c ||
  c == Char.ofNat 0xa0 || c == Char.ofNat 0xfeff

/-- ASCII case folding, the fragment of `String.prototype.toLowerCase`
exercised by the pipeline's filenames and tag values. -/
def jsToLowerChar (c : Char) : Char :=
  if 'A' ≤ c ∧ c ≤ 'Z' then Char.ofNat (c.toNat + 32) else c

def jsToLower (s : String) : String := String.mk (s.data.map jsToLowerChar)

/-- `pre` is a prefix of `s` (model of `String.prototype.startsWith`). -/
def listStartsWith : List Char → List Char → Bool
  | [], _ => true
  | _ :: _, [] => false
  | p :: ps, c :: cs => p == c && listStartsWith ps cs

def jsStartsWith (s pre : String) : Bool := listStartsWith pre.data s.data

/-- Model of `String.prototype.split` with a single-character-class
separator: always returns a non-empty list of (possibly empty) segments. -/
def jsSplit (p : Char → Bool) : List Char → List (List Char)
  | [] => [[]]
  | c :: rest =>
    if p c then [] :: jsSplit p rest
    else
      match jsSplit p rest with
      | s :: ss => (c :: s) :: ss
      | [] => [[c]]

/-- Model of `String.prototype.trim`. -/
def jsTrim (s : String) : String :=
  String.mk (((s.data.dropWhile jsWhitespace).reverse.dropWhile jsWhitespace).reverse)

def hexDigit (c : Char) : Bool :=
  ('0' ≤ c ∧ c ≤ '9') || ('a' ≤ c ∧ c ≤ 'f') || ('A' ≤ c ∧ c ≤ 'F')

def hexVal (c : Char) : Nat :=
  if '0' ≤ c ∧ c ≤ '9' then c.toNat - '0'.toNat
  else if 'a' ≤ c ∧ c ≤ 'f' then c.toNat - 'a'.toNat + 10
  else c.toNat - 'A'.toNat + 10

/-- Model of `decodeURIComponent`: `none` models the thrown `URIError` on a
malformed percent escape; a well-formed escape `%XY` decodes to the code
point `16*X+Y` (multi-byte UTF-8 recombination is outside this model). -/
def percentDecode : List Char → Option (List Char)
  | [] => some []
  | c :: rest =>
    if c == '%' then
      match rest with
      | a :: b :: rest' =>
        if hexDigit a && hexDigit b then
          (percentDecode rest').map (fun ds => Char.ofNat (16 * hexVal a + hexVal b) :: ds)
        else none
      | _ => none
    else (percentDecode rest).map (fun ds => c :: ds)

/-! ## `getFilenameFromPath` (src/utils/fileUtils.ts, lines 58–78) -/

/-- Shallow embedding of `getFilenameFromPath`.  Splits on `/` and `\`,
takes the last segment, strips from the first `?` or `#`, then URL-decodes,
keeping the undecoded segment if decoding throws. -/
def getFilenameFromPath (path : String) : String :=
  if path.data = [] then ""
  else if jsStartsWith path "data:" || jsStartsWith path "http://" ||
          jsStartsWith path "https://" then ""
  else
    let parts := jsSplit (fun c => c == '/' || c == '\\') path.data
    let filename := parts.getLastD []
    let filename := (jsSplit (fun c => c == '?' || c == '#') filename).headD []
    match percentDecode filename with
    | some d => String.mk d
    | none => String.mk filename

/-- Claim-side restatement of "the last path segment": the suffix after the
last `/` or `\` separator. -/
def lastSegment (cs : List Char) : List Char :=
  (cs.reverse.takeWhile (fun c => !(c == '/' || c == '\\'))).reverse

/-- Claim-side restatement of "strip query string and fragment": keep the
characters before the first `?` or `#`. -/
def stripQuery (cs : List Char) : List Char :=
  cs.takeWhile (fun c => !(c == '?' || c == '#'))

/-! ## Asset registry and lookup strategies
(src/utils/fileUtils.ts, lines 149–163, 205–232, 319–330) -/

/-- The two filename→data-URL maps.  A JS `Map` is modelled as an
association list whose *first* matching entry is the most recent `set`. -/
structure Registry where
  exact : List (String × String)
  lower : List (String × String)

def mapSet (m : List (String × String)) (k v : String) : List (String × String) :=
  (k, v) :: m

def mapGet (m : List (String × String)) (k : String) : Option String :=
  match m.find? (fun p => p.1 == k) with
  | some p => some p.2
  | none => none

/-- The element-attribute lookup of `processAttribute`: exact-case, then
lowercase, then URL-decoded exact, then URL-decoded lowercase; a decoding
error abandons the last two strategies. -/
def lookupAsset (reg : Registry) (filename : String) : Option String :=
  match mapGet reg.exact filename with
  | some u => some u
  | none =>
    match mapGet reg.lower (jsToLower filename) with
    | some u => some u
    | none =>
      match percentDecode filename.data with
      | some d =>
        (match mapGet reg.exact (String.mk d) with
         | some u => some u
         | none => mapGet reg.lower (jsToLower (String.mk d)))
      | none => none

/-- The stylesheet-pass lookup (the `url(...)` regex callback): exact-case,
then lowercase — and nothing further. -/
def lookupAssetCss (reg : Registry) (filename : String) : Option String :=
  match mapGet reg.exact filename with
  | some u => some u
  | none => mapGet reg.lower (jsToLower filename)

/-- One attribute rewrite of `processAttribute`: `val` is the attribute's
current value (`""` models an absent/empty attribute, which is skipped);
the result is the value left in the document. -/
def resolveValue (reg : Registry) (val : String) : String :=
  if val.data = [] then val
  else
    let filename := getFilenameFromPath val
    if filename.data = [] then val
    else
      match lookupAsset reg filename with
      | some u => u
      | none => val

/-- One `url(...)` occurrence rewrite of the stylesheet fallback pass,
restricted to the inner value (the regex callback keeps the quote and the
parentheses around this value). -/
def cssResolveVal (reg : Registry) (url : String) : String :=
  let filename := getFilenameFromPath url
  if filename.data = [] then url
  else
    match lookupAssetCss reg filename with
    | some u => u
    | none => url

/-! ## Page records and the Page Sequencer
(src/utils/fileUtils.ts, lines 339–353) -/

/-- A `ProcessedPage` restricted to the fields the verified components
inspect; `id` (a random UUID) and `url` (a host blob handle) are opaque host
values and are omitted. -/
structure ProcessedPage where
  name : String
  index : Nat
deriving Repr, DecidableEq

/-- A token of a name under natural ordering: a maximal digit run read as a
number, or a run of other characters (case-folded code points). -/
inductive Tok where
  | num : Nat → Tok
  | str : List Nat → Tok
deriving Repr, DecidableEq

/-- Lexicographic comparison of token lists (and of code-point lists),
parametric in the element comparison. -/
def lexCmp (cmp : α → α → Ordering) : List α → List α → Ordering
  | [], [] => .eq
  | [], _ :: _ => .lt
  | _ :: _, [] => .gt
  | a :: as, b :: bs =>
    match cmp a b with
    | .eq => lexCmp cmp as bs
    | o => o

/-- Token comparison: numbers by value; character runs lexicographically by
case-folded code point; a numeric run collates before a character run. -/
def tokCmp : Tok → Tok → Ordering
  | .num a, .num b => compare a b
  | .num _, .str _ => .lt
  | .str _, .num _ => .gt
  | .str a, .str b => lexCmp compare a b

def isDigitChar (c : Char) : Bool := '0' ≤ c ∧ c ≤ '9'

/-- One step of the tokenizer, consuming one character on the right of an
already-reversed token list (character runs are kept reversed while
scanning). -/
def pushTokChar (ts : List Tok) (c : Char) : List Tok :=
  if isDigitChar c then
    match ts with
    | .num n :: rest => .num (n * 10 + (c.toNat - '0'.toNat)) :: rest
    | _ => .num (c.toNat - '0'.toNat) :: ts
  else
    match ts with
    | .str s :: rest => .str ((jsToLowerChar c).toNat :: s) :: rest
    | _ => .str [(jsToLowerChar c).toNat] :: ts

def fixTok : Tok → Tok
  | .num n => .num n
  | .str s => .str s.reverse

/-- Split a name into maximal digit / non-digit runs. -/
def tokenize (s : String) : List Tok :=
  ((s.data.foldl pushTokChar []).map fixTok).reverse

/-- Model of the comparator
`a.name.localeCompare(b.name, undefined, {numeric: true, sensitivity: 'base'})`:
locale-aware natural ordering — numeric substrings compared by numeric
value, other runs case-insensitively. -/
def natCmp (a b : String) : Ordering := lexCmp tokCmp (tokenize a) (tokenize b)

/-- The sort order used by `processedPages.sort(...)`: `a` precedes (or
ties with) `b` when the comparator does not return "greater". -/
def pageLe (a b : ProcessedPage) : Prop := natCmp a.name b.name ≠ Ordering.gt

instance : DecidableRel pageLe := fun a b => by
  unfold pageLe; infer_instance

/-- `pages.map((page, index) => ({...page, index}))`, generalized to an
arbitrary starting index for the induction. -/
def assignFrom (i : Nat) : List ProcessedPage → List ProcessedPage
  | [] => []
  | p :: ps => { p with index := i } :: assignFrom (i + 1) ps

/-- The Page Sequencer: the host's stable `Array.prototype.sort` with the
natural-order comparator is modelled by the stable `insertionSort`, then
dense indices 0..N−1 are assigned in sorted order. -/
def sequencePages (ps : List ProcessedPage) : List ProcessedPage :=
  assignFrom 0 (List.insertionSort pageLe ps)

/-! ## Spread Layout Engine (src/components/BookReader.tsx, lines 14–87)
and total-spread count (App component, lines 128–161) -/

/-- The value of `displayedPages`: each slot holds a page or is empty;
`leftIsSpacer` marks the deliberate blank filler slot. -/
structure SpreadResult where
  left : Option ProcessedPage
  right : Option ProcessedPage
  isCoverView : Bool
  leftIsSpacer : Bool
deriving Repr, DecidableEq

/-- `(idx >= 0 && idx < pages.length) ? pages[idx] : null` -/
def pageAt (pages : List ProcessedPage) (i : Int) : Option ProcessedPage :=
  if 0 ≤ i ∧ i < pages.length then pages[i.toNat]? else none

/-- The content-spread index computation of `displayedPages`
(`leftPageIndex`, `rightPageIndex`, `leftIsSpacer`). -/
def contentIndices (spreadIndex : Nat) (hasCover useSpacer : Bool) : Int × Int × Bool :=
  let si : Int := spreadIndex
  if hasCover then
    let c := si - 1
    if useSpacer then
      let r := 1 + c * 2
      let l := r - 1
      if l = 0 then (-1, r, true) else (l, r, false)
    else
      let l := 1 + c * 2
      (l, l + 1, false)
  else
    if useSpacer then
      let r := si * 2
      let l := r - 1
      (l, r, l < 0)
    else
      let l := si * 2
      (l, l + 1, false)

/-- Shallow embedding of the `displayedPages` computation. -/
def displayedPages (pages : List ProcessedPage) (spreadIndex : Nat)
    (hasCover useSpacer : Bool) : SpreadResult :=
  if pages.length = 0 then ⟨none, none, false, false⟩
  else if hasCover ∧ spreadIndex = 0 then ⟨none, pages.head?, true, false⟩
  else
    let lrs := contentIndices spreadIndex hasCover useSpacer
    ⟨pageAt pages lrs.1, pageAt pages lrs.2.1, false, lrs.2.2⟩

/-- `Math.ceil(n / 2)` for a non-negative integer `n`. -/
def ceilHalf (n : Nat) : Nat := (n + 1) / 2

/-- Shallow embedding of the App component's `totalSpreads` closed form. -/
def totalSpreads (n : Nat) (hasCover useSpacer : Bool) : Nat :=
  if n = 0 then 0
  else if hasCover then
    1 + (if useSpacer then ceilHalf ((n - 1) + 1) else ceilHalf (n - 1))
  else
    if useSpacer then ceilHalf (n + 1) else ceilHalf n

/-- A spread shows a real page exactly when a slot holds a page (spacer and
empty slots are not real pages). -/
def hasRealPage (r : SpreadResult) : Bool := r.left.isSome || r.right.isSome

/-- A concrete page for closed evaluations. -/
def samplePage : ProcessedPage := ⟨"page1.svg", 0⟩

/-! ## Dimension extraction (src/utils/fileUtils.ts, lines 172–197 and
335–337) -/

/-- A JS number that may be `NaN` (`none`); the numeric fragment is modelled
over `ℚ`. -/
abbrev JNum := Option ℚ

/-- JS falsiness of a number: `0` and `NaN` are falsy. -/
def jfalsy : JNum → Bool
  | none => true
  | some q => q == 0

/-- Shallow embedding of the dimension extraction.  `viewBox` is the parsed
`viewBox` attribute (`split(/[\s,]+/).filter(Boolean).map(Number)` is
modelled by passing the resulting number list; `none` = attribute absent);
`wAttr`/`hAttr` are the root's `width`/`height` attributes (`none` =
absent or empty, `some v` = `parseFloat` result `v`, itself `none` when the
parse yields `NaN`).  Returns the final page dimensions after the 595×842
default. -/
def extractDims (viewBox : Option (List JNum)) (wAttr hAttr : Option JNum) : ℚ × ℚ :=
  let w0 : JNum := some 0
  let h0 : JNum := some 0
  let wh1 : JNum × JNum :=
    match viewBox with
    | some parts =>
      if parts.length = 4 then (parts.getD 2 (some 0), parts.getD 3 (some 0)) else (w0, h0)
    | none => (w0, h0)
  let wh2 : JNum × JNum :=
    if jfalsy wh1.1 || jfalsy wh1.2 then
      ((match wAttr with | some v => v | none => wh1.1),
       (match hAttr with | some v => v | none => wh1.2))
    else wh1
  ((if jfalsy wh2.1 then 595 else wh2.1.getD 595),
   (if jfalsy wh2.2 then 842 else wh2.2.getD 842))

/-! ## Traversal, classification and the ingestion pipeline
(src/utils/fileUtils.ts, lines 10–53, 115–171, 332–353) -/

/-- A raw file handle.  The two asynchronous host reads (`file.text()` and
`FileReader.readAsDataURL`) are modelled as pre-resolved results. -/
structure RawFile where
  name : String
  mime : String
  textContent : Except String String
  dataUrlContent : Except String String

/-- A file-system entry as seen by the traversal: a file whose `.file()`
callback either yields a handle or errors, or a directory whose reader
yields successive `readEntries` batches (each a batch of entries or an
error); an empty batch signals completion. -/
inductive FsEntry where
  | file : Except String RawFile → FsEntry
  | dir : List (Except String (List FsEntry)) → FsEntry

/-- Shallow embedding of `readAllEntries`: accumulate batches until an empty
batch (or exhaustion of the modelled stream); any batch error rejects. -/
def readAllEntries : List (Except String (List FsEntry)) → Except String (List FsEntry)
  | [] => .ok []
  | .error e :: _ => .error e
  | .ok [] :: _ => .ok []
  | .ok (e :: es) :: rest =>
    match readAllEntries rest with
    | .error msg => .error msg
    | .ok tail => .ok (e :: es ++ tail)

/-- Sequential effectful map in the `Except` monad: the first error rejects
(the model of a chain of `await`s over a list). -/
def exMapM (f : α → Except String β) : List α → Except String (List β)
  | [] => .ok []
  | a :: as =>
    match f a with
    | .error e => .error e
    | .ok b =>
      match exMapM f as with
      | .error e => .error e
      | .ok bs => .ok (b :: bs)

/-- Every entry delivered by `readAllEntries` is structurally below the
batch list (termination measure for the traversal). -/
def readAll_size : ∀ (bs : List (Except String (List FsEntry))) (es : List FsEntry),
    readAllEntries bs = Except.ok es → ∀ x ∈ es, sizeOf x < sizeOf bs := by
  intro bs
  induction bs with
  | nil =>
    intro es h x hx
    simp only [readAllEntries, Except.ok.injEq] at h
    subst h; simp at hx
  | cons b rest ih =>
    intro es h x hx
    match b with
    | .error e => simp [readAllEntries] at h
    | .ok [] =>
      simp only [readAllEntries, Except.ok.injEq] at h
      subst h; simp at hx
    | .ok (y :: ys) =>
      simp only [readAllEntries] at h
      cases hr : readAllEntries rest with
      | error msg => rw [hr] at h; simp at h
      | ok tail =>
        rw [hr] at h
        simp only [Except.ok.injEq] at h
        subst h
        rcases List.mem_append.mp hx with hx' | hx'
        · have := List.sizeOf_lt_of_mem hx'
          simp only [List.cons.sizeOf_spec, Except.ok.sizeOf_spec] at this ⊢
          omega
        · have := ih tail hr x hx'
          simp only [List.cons.sizeOf_spec] at this ⊢
          omega

/-- Shallow embedding of `traverseFileTree`: a file-read error or a listing
error rejects the whole traversal; a directory first drains its reader,
then recurses into each child in order. -/
def travEntry : FsEntry → Except String (List RawFile)
  | .file (.error e) => .error e
  | .file (.ok f) => .ok [f]
  | .dir batches =>
    match h : readAllEntries batches with
    | .error e => .error e
    | .ok entries =>
      match exMapM (fun ch => travEntry ch.1) entries.attach with
      | .error e => .error e
      | .ok fss => .ok fss.flatten
termination_by e => sizeOf e
decreasing_by
  have hlt := readAll_size batches entries h ch.1 ch.2
  simp only [FsEntry.dir.sizeOf_spec]
  omega

/-- One entry of a `DataTransferItemList`: a hierarchical entry
(`webkitGetAsEntry` succeeded), a plain file (`kind === 'file'`), or
something else (skipped). -/
inductive DropItem where
  | entry : FsEntry → DropItem
  | plainFile : RawFile → DropItem
  | other : DropItem

/-- The plain-file view of a drop item (`item.getAsFile()` for non-entry
items of kind `file`). -/
def itemPlain : DropItem → Option RawFile
  | .plainFile f => some f
  | _ => none

/-- The hierarchical-entry view of a drop item (`webkitGetAsEntry()`). -/
def itemEntry : DropItem → Option FsEntry
  | .entry e => some e
  | _ => none

/-- The file-collection phase of `processFiles` for a drag-and-drop item
list: plain files are pushed during the first loop, then each hierarchical
entry is traversed in order. -/
def collectFromItems (items : List DropItem) : Except String (List RawFile) :=
  match exMapM travEntry (items.filterMap itemEntry) with
  | .error e => .error e
  | .ok traversed => .ok (items.filterMap itemPlain ++ traversed.flatten)

def jsEndsWith (s suf : String) : Bool := listStartsWith suf.data.reverse s.data.reverse

/-- Document classification: declared media type or (case-insensitive)
`.svg` extension. -/
def isSvg (f : RawFile) : Bool :=
  f.mime == "image/svg+xml" || jsEndsWith (jsToLower f.name) ".svg"

def notHidden (f : RawFile) : Bool := !(jsStartsWith f.name ".")

/-- One asset encode: on a successful read, register the data URL under the
exact-case and lowercase keys; a read failure is caught and the asset is
skipped.  (The concurrent fan-out is determinized to list order; the claims
proved below do not depend on the insertion order.) -/
def encodeAsset (m : Registry) (f : RawFile) : Registry :=
  match f.dataUrlContent with
  | .ok u => { exact := mapSet m.exact f.name u, lower := mapSet m.lower (jsToLower f.name) u }
  | .error _ => m

def buildRegistry (assets : List RawFile) : Registry :=
  assets.foldl encodeAsset ⟨[], []⟩

/-- The ingestion pipeline of `processFiles`, at the granularity the
error-handling claims need: collect files, drop hidden ones, classify,
build the asset registry (lenient), read each document's text (strict),
and sequence the resulting pages.  The per-document DOM rewrite is
modelled separately (`resolveValue`, `extractDims`, `processRedactions`). -/
def readDocument (f : RawFile) : Except String ProcessedPage :=
  match f.textContent with
  | .error e => .error e
  | .ok _content => .ok { name := f.name, index := 0 }

def processFilesE (items : List DropItem) : Except String (List ProcessedPage) :=
  match collectFromItems items with
  | .error e => .error e
  | .ok allFiles =>
    let files := allFiles.filter notHidden
    let svgFiles := files.filter isSvg
    let assetFiles := files.filter (fun f => !isSvg f)
    let _registry := buildRegistry assetFiles
    match exMapM readDocument svgFiles with
    | .error e => .error e
    | .ok pages => .ok (sequencePages pages)

mutual
/-- A traversal-reachable error below this entry: the file read errors, or
the directory's listing errors before its terminating empty batch, or some
listed child has one. -/
def entryHasError : FsEntry → Bool
  | .file (.error _) => true
  | .file (.ok _) => false
  | .dir batches => batchesHaveError batches
def batchesHaveError : List (Except String (List FsEntry)) → Bool
  | [] => false
  | .error _ :: _ => true
  | .ok [] :: _ => false
  | .ok (e :: es) :: rest => entriesHaveError (e :: es) || batchesHaveError rest
def entriesHaveError : List FsEntry → Bool
  | [] => false
  | e :: es => entryHasError e || entriesHaveError es
end

def itemHasError : DropItem → Bool
  | .entry e => entryHasError e
  | _ => false

/-! ## DOM model and redaction (src/utils/fileUtils.ts, lines 94–105 and
241–313) -/

/-- A parsed markup tree: element nodes with ordered attributes and
children, and text nodes.  Comments and other node kinds play no role in
the redaction pass and are omitted. -/
inductive XNode where
  | elem : String → List (String × String) → List XNode → XNode
  | text : String → XNode
deriving Repr

/-- `getAttribute`: the value of the first binding of `k`. -/
def getAttr (attrs : List (String × String)) (k : String) : Option String :=
  match attrs.find? (fun p => p.1 == k) with
  | some p => some p.2
  | none => none

/-- `setAttribute`: replace an existing binding in place, else append. -/
def setAttr (attrs : List (String × String)) (k v : String) : List (String × String) :=
  if attrs.any (fun p => p.1 == k) then
    attrs.map (fun p => if p.1 == k then (k, v) else p)
  else attrs ++ [(k, v)]

/-- `('data-tags attribute' || '').split(',').map(s => s.trim().toLowerCase())
.some(t => t.startsWith('redact'))`. -/
def hasRedactTag (attrs : List (String × String)) : Bool :=
  let tagsStr := (getAttr attrs "data-tags").getD ""
  ((jsSplit (fun c => c == ',') tagsStr.data).map String.mk).any
    (fun v => jsStartsWith (jsToLower (jsTrim v)) "redact")

/-- U+25AE, the block glyph substituted for redacted characters. -/
def blockChar : Char := Char.ofNat 0x25AE

/-- `textContent.replace(/[^\s]/g, '▮')`. -/
def redactString (s : String) : String :=
  String.mk (s.data.map (fun c => if jsWhitespace c then c else blockChar))

mutual
/-- Shallow embedding of `redactTextNodes`: text nodes are redacted, other
nodes recurse into their children. -/
def redactTextNodes : XNode → XNode
  | .text s => .text (redactString s)
  | .elem n a cs => .elem n a (redactTextNodesList cs)
def redactTextNodesList : List XNode → List XNode
  | [] => []
  | c :: cs => redactTextNodes c :: redactTextNodesList cs
end

/-- `url(#filterId)` -/
def urlRef (fid : String) : String := "url(#" ++ fid ++ ")"

/-- The per-image mutation: set the `filter` attribute to the shared filter
reference, then append the inline CSS blur to the `style` attribute. -/
def blurAttrs (fid : String) (attrs : List (String × String)) : List (String × String) :=
  let a1 := setAttr attrs "filter" (urlRef fid)
  let existingStyle := (getAttr a1 "style").getD ""
  setAttr a1 "style" (existingStyle ++ "; filter: blur(150px);")

mutual
/-- Apply the image mutation to every descendant-or-self element named
`image` (the static `getElementsByTagName('image')` collection of a
subtree root is exactly the `image` elements of its child subtrees). -/
def mapImages (fid : String) : XNode → XNode
  | .text s => .text s
  | .elem n a cs =>
    .elem n (if n == "image" then blurAttrs fid a else a) (mapImagesList fid cs)
def mapImagesList (fid : String) : List XNode → List XNode
  | [] => []
  | c :: cs => mapImages fid c :: mapImagesList fid cs
end

/-- Processing of one redact-tagged element: blur itself when it is an
image (`nodeName.toLowerCase() === 'image'`), otherwise blur all descendant
`image` elements; then redact every descendant text node. -/
def applyRedactEl (fid : String) : XNode → XNode
  | .text s => .text s
  | .elem n a cs =>
    redactTextNodes
      (if jsToLower n == "image" then .elem n (blurAttrs fid a) cs
       else .elem n a (mapImagesList fid cs))

mutual
/-- The number of nodes of a subtree: the measure for the mutation sweep,
preserved by the per-element mutations. -/
def nodeCount : XNode → Nat
  | .text _ => 1
  | .elem _ _ cs => 1 + nodeCountList cs
def nodeCountList : List XNode → Nat
  | [] => 0
  | c :: cs => nodeCount c + nodeCountList cs
end

def nodeCount_pos : ∀ t : XNode, 1 ≤ nodeCount t
  | .text _ => Nat.le_refl 1
  | .elem _ _ _ => Nat.le_add_right 1 _

mutual
def nodeCount_redactTN : ∀ t, nodeCount (redactTextNodes t) = nodeCount t
  | .text _ => rfl
  | .elem n a cs => by
    simp only [redactTextNodes, nodeCount, nodeCountList_redactTN cs]
def nodeCountList_redactTN : ∀ l, nodeCountList (redactTextNodesList l) = nodeCountList l
  | [] => rfl
  | c :: cs => by
    simp only [redactTextNodesList, nodeCountList, nodeCount_redactTN c,
      nodeCountList_redactTN cs]
end

mutual
def nodeCount_mapImages : ∀ (fid : String) (t : XNode),
    nodeCount (mapImages fid t) = nodeCount t
  | _, .text _ => rfl
  | fid, .elem n a cs => by
    simp only [mapImages, nodeCount, nodeCountList_mapImages fid cs]
def nodeCountList_mapImages : ∀ (fid : String) (l : List XNode),
    nodeCountList (mapImagesList fid l) = nodeCountList l
  | _, [] => rfl
  | fid, c :: cs => by
    simp only [mapImagesList, nodeCountList, nodeCount_mapImages fid c,
      nodeCountList_mapImages fid cs]
end

/-- The per-element processing step leaves the number of nodes below the
element unchanged. -/
def redactStep_count : ∀ (fid n : String) (a : List (String × String)) (cs : List XNode)
    (n' : String) (a' : List (String × String)) (cs' : List XNode),
    (if hasRedactTag a then applyRedactEl fid (XNode.elem n a cs) else XNode.elem n a cs)
      = XNode.elem n' a' cs' →
    nodeCountList cs' = nodeCountList cs := by
  intro fid n a cs n' a' cs' h
  by_cases ht : hasRedactTag a
  · simp only [ht, if_true, applyRedactEl] at h
    by_cases hi : jsToLower n == "image"
    · simp only [hi, if_true, redactTextNodes, XNode.elem.injEq] at h
      rcases h with ⟨-, -, h3⟩
      rw [← h3, nodeCountList_redactTN]
    · simp only [hi, if_false, Bool.false_eq_true, redactTextNodes, XNode.elem.injEq] at h
      rcases h with ⟨-, -, h3⟩
      rw [← h3, nodeCountList_redactTN, nodeCountList_mapImages]
  · simp only [ht, if_false, Bool.false_eq_true, XNode.elem.injEq] at h
    rcases h with ⟨-, -, h3⟩
    rw [← h3]

mutual
/-- The `taggedElements.forEach` mutation sweep, document order: an element
with a redaction tag is processed, then the (already mutated) children are
swept in turn — matching the static NodeList iteration in which an outer
tagged element is visited before a nested one. -/
def redactPass (fid : String) : XNode → XNode
  | .text s => .text s
  | .elem n a cs =>
    match h : (if hasRedactTag a then applyRedactEl fid (.elem n a cs) else .elem n a cs) with
    | .elem n' a' cs' => .elem n' a' (redactPassList fid cs')
    | .text s => .text s
termination_by t => 2 * nodeCount t
decreasing_by
  have hc := redactStep_count fid n a cs n' a' cs' h
  simp only [nodeCount]
  omega
def redactPassList (fid : String) : List XNode → List XNode
  | [] => []
  | c :: cs => redactPass fid c :: redactPassList fid cs
termination_by l => 2 * nodeCountList l + 1
decreasing_by
  · have hp := nodeCount_pos c
    simp only [nodeCountList]
    omega
  · have hp := nodeCount_pos c
    simp only [nodeCountList]
    omega
end

mutual
/-- `doc.querySelector('defs') !== null`: some element of the tree
(pre-order, root included) is named `defs`. -/
def findDefs : XNode → Bool
  | .text _ => false
  | .elem n _ cs => n == "defs" || findDefsList cs
def findDefsList : List XNode → Bool
  | [] => false
  | c :: cs => findDefs c || findDefsList cs
end

mutual
/-- `defs.appendChild(filter)` on the first `defs` element in document
order. -/
def appendToFirstDefs (f : XNode) : XNode → XNode
  | .text s => .text s
  | .elem n a cs =>
    if n == "defs" then .elem n a (cs ++ [f])
    else .elem n a (appendToFirstDefsList f cs)
def appendToFirstDefsList (f : XNode) : List XNode → List XNode
  | [] => []
  | c :: cs => if findDefs c then appendToFirstDefs f c :: cs else c :: appendToFirstDefsList f cs
end

/-- The `feGaussianBlur` primitive created by the source: oversized blur,
edge duplication. -/
def feGaussianNode : XNode :=
  .elem "feGaussianBlur"
    [("in", "SourceGraphic"), ("stdDeviation", "150"), ("edgeMode", "duplicate")] []

/-- The shared blur-filter definition with its oversized effect region. -/
def filterNode (fid : String) : XNode :=
  .elem "filter"
    [("id", fid), ("x", "-50%"), ("y", "-50%"), ("width", "200%"), ("height", "200%")]
    [feGaussianNode]

/-- Ensure a `defs` container exists (created as first child of the root
when absent) and append the freshly built filter definition to the first
`defs` in document order. -/
def ensureDefsFilter (fid : String) (root : XNode) : XNode :=
  if findDefs root then appendToFirstDefs (filterNode fid) root
  else
    match root with
    | .elem n a cs => .elem n a (.elem "defs" [] [filterNode fid] :: cs)
    | .text s => .text s

mutual
/-- `needsFilter`: some element carries a redaction-tagged classification
attribute. -/
def needsFilterB : XNode → Bool
  | .text _ => false
  | .elem _ a cs => hasRedactTag a || needsFilterList cs
def needsFilterList : List XNode → Bool
  | [] => false
  | c :: cs => needsFilterB c || needsFilterList cs
end

/-- The whole redaction phase of `processFiles` for one document, with the
generated collision-resistant filter id passed in (the host's
`Math.random` id generation is an external input). -/
def processRedactions (fid : String) (root : XNode) : XNode :=
  if needsFilterB root then redactPass fid (ensureDefsFilter fid root) else root

/-- A direct child that is the blur-filter definition with the given id. -/
def childIsFilter (fid : String) : XNode → Bool
  | .elem n a _ => n == "filter" && getAttr a "id" == some fid
  | .text _ => false

mutual
/-- Some `defs` element of the tree holds a filter definition with the
given id among its children. -/
def hasFilterDef (fid : String) : XNode → Bool
  | .text _ => false
  | .elem n _ cs => (n == "defs" && cs.any (childIsFilter fid)) || hasFilterDefList fid cs
def hasFilterDefList (fid : String) : List XNode → Bool
  | [] => false
  | c :: cs => hasFilterDef fid c || hasFilterDefList fid cs
end

/-- Every character of the string is whitespace or the block glyph. -/
def blockyStr (s : String) : Bool :=
  s.data.all (fun c => jsWhitespace c || c == blockChar)

mutual
/-- Every text node in the subtree is fully redacted. -/
def allTextsBlocky : XNode → Bool
  | .text s => blockyStr s
  | .elem _ _ cs => allTextsBlockyList cs
def allTextsBlockyList : List XNode → Bool
  | [] => true
  | c :: cs => allTextsBlocky c && allTextsBlockyList cs
end

mutual
/-- Every element named `image` in the subtree (self included) references
the blur filter through its `filter` attribute. -/
def allImagesRef (fid : String) : XNode → Bool
  | .text _ => true
  | .elem n a cs =>
    (!(n == "image") || getAttr a "filter" == some (urlRef fid)) && allImagesRefList fid cs
def allImagesRefList (fid : String) : List XNode → Bool
  | [] => true
  | c :: cs => allImagesRef fid c && allImagesRefList fid cs
end

mutual
/-- The redaction postcondition, checked over a processed tree: every
redact-tagged element references the filter itself when it is an image and
otherwise has all descendant images referencing it, and has all its
descendant text nodes redacted. -/
def redactionOK (fid : String) : XNode → Bool
  | .text _ => true
  | .elem n a cs =>
    (if hasRedactTag a then
      (if jsToLower n == "image" then getAttr a "filter" == some (urlRef fid)
       else allImagesRefList fid cs) && allTextsBlockyList cs
     else true) && redactionOKList fid cs
def redactionOKList (fid : String) : List XNode → Bool
  | [] => true
  | c :: cs => redactionOK fid c && redactionOKList fid cs
end

mutual
/-- The text nodes of the subtree, in document order. -/
def allTexts : XNode → List String
  | .text s => [s]
  | .elem _ _ cs => allTextsList cs
def allTextsList : List XNode → List String
  | [] => []
  | c :: cs => allTexts c ++ allTextsList cs
end

mutual
/-- The text nodes lying under a redact-tagged element (or under any node
when the flag says a tagged ancestor has already been passed). -/
def taggedTexts : Bool → XNode → List String
  | b, .text s => if b then [s] else []
  | b, .elem _ a cs => taggedTextsList (b || hasRedactTag a) cs
def taggedTextsList : Bool → List XNode → List String
  | _, [] => []
  | b, c :: cs => taggedTexts b c ++ taggedTextsList b cs
end

/-- The number of whitespace characters of a string. -/
def wsCount (s : String) : Nat := s.data.countP jsWhitespace

/-- The sweep postcondition bundle for one subtree: text stability on
already-redacted trees, image-reference and filter-definition preservation,
the redaction postcondition, and the tagged-text correspondence. -/
def PassPost (fid : String) (t : XNode) : Prop :=
  (allTextsBlocky t = true → allTexts (redactPass fid t) = allTexts t)
  ∧ (allImagesRef fid t = true → allImagesRef fid (redactPass fid t) = true)
  ∧ (hasFilterDef fid t = true → hasFilterDef fid (redactPass fid t) = true)
  ∧ redactionOK fid (redactPass fid t) = true
  ∧ taggedTexts false (redactPass fid t) = (taggedTexts false t).map redactString

/-- The list-level analogue of `PassPost`. -/
def PassPostList (fid : String) (l : List XNode) : Prop :=
  (allTextsBlockyList l = true → allTextsList (redactPassList fid l) = allTextsList l)
  ∧ (allImagesRefList fid l = true → allImagesRefList fid (redactPassList fid l) = true)
  ∧ (hasFilterDefList fid l = true → hasFilterDefList fid (redactPassList fid l) = true)
  ∧ redactionOKList fid (redactPassList fid l) = true
  ∧ taggedTextsList false (redactPassList fid l) = (taggedTextsList false l).map redactString

/-! ## Concrete inputs for closed evaluations -/

/-- A registry holding one asset under the decoded name `my image.png`. -/
def spacedRegistry : Registry :=
  ⟨[("my image.png", "data:image/png;base64,AA")], [("my image.png", "data:image/png;base64,AA")]⟩

/-- A registry whose values are embedded data URLs. -/
def dataRegistry : Registry :=
  ⟨[("a.png", "data:image/png;base64,QQ")], [("a.png", "data:image/png;base64,QQ")]⟩

/-- A document with one redact-tagged group holding an image and a text. -/
def redactSampleRoot : XNode :=
  .elem "svg" []
    [.elem "g" [("data-tags", "redact:face")]
      [.elem "image" [("href", "x.png")] [], .text "top secret"]]

/-- An asset whose read fails. -/
def badAsset : RawFile := ⟨"broken.png", "image/png", .ok "", .error "read failed"⟩

/-- An asset whose read succeeds. -/
def goodAsset : RawFile := ⟨"good.png", "image/png", .ok "", .ok "data:image/png;base64,ZZ"⟩

/-- A document file whose text read succeeds. -/
def goodSvg : RawFile := ⟨"page1.svg", "image/svg+xml", .ok "<svg/>", .ok ""⟩

/-- A document file whose text read fails. -/
def badSvg : RawFile := ⟨"page2.svg", "image/svg+xml", .error "text failed", .ok ""⟩

/-- A drop containing a failing directory listing. -/
def badListingItem : DropItem := .entry (.dir [.error "listing failed"])

/-! # Theorems -/

/-! ## Splitting lemmas -/

theorem jsSplit_ne_nil (p : Char → Bool) : ∀ cs, jsSplit p cs ≠ []
  | [] => by simp [jsSplit]
  | c :: rest => by
    simp only [jsSplit]
    split
    · simp
    · match hs : jsSplit p rest with
      | s :: ss => simp
      | [] => simp

theorem getLastD_cons_of_ne_nil {α : Type} {l : List α} (h : l ≠ []) (x d : α) :
    (x :: l).getLastD d = l.getLastD d := by
  match l with
  | [] => exact absurd rfl h
  | y :: m => simp [List.getLastD_cons]

theorem takeWhile_append_stop {α : Type} {q : α → Bool} :
    ∀ {l1 : List α} (l2 : List α), (∃ x ∈ l1, q x = false) →
      (l1 ++ l2).takeWhile q = l1.takeWhile q
  | [], _, h => by simp at h
  | a :: l1, l2, h => by
    simp only [List.cons_append, List.takeWhile_cons]
    by_cases hq : q a
    · simp only [hq, if_true]
      rcases h with ⟨x, hx, hqx⟩
      rcases List.mem_cons.mp hx with rfl | hx'
      · rw [hq] at hqx; cases hqx
      · rw [takeWhile_append_stop l2 ⟨x, hx', hqx⟩]
    · simp [hq]

theorem jsSplit_headD (p : Char → Bool) :
    ∀ cs, (jsSplit p cs).headD [] = cs.takeWhile (fun c => !p c)
  | [] => by simp [jsSplit]
  | c :: rest => by
    simp only [jsSplit, List.takeWhile_cons]
    by_cases hp : p c
    · simp [hp]
    · simp only [hp, if_false, Bool.not_false, if_true, Bool.false_eq_true]
      match hs : jsSplit p rest with
      | s :: ss =>
        have h2 := jsSplit_headD p rest
        rw [hs] at h2
        simp only [List.headD_cons] at h2 ⊢
        rw [h2]
      | [] => exact absurd hs (jsSplit_ne_nil p rest)

theorem jsSplit_no_sep (p : Char → Bool) :
    ∀ cs, cs.any p = false → jsSplit p cs = [cs]
  | [] => by simp [jsSplit]
  | c :: rest => by
    intro h
    simp only [List.any_cons, Bool.or_eq_false_iff] at h
    simp only [jsSplit, h.1, Bool.false_eq_true, if_false]
    rw [jsSplit_no_sep p rest h.2]

theorem jsSplit_length (p : Char → Bool) :
    ∀ cs, (jsSplit p cs).length = cs.countP p + 1
  | [] => by simp [jsSplit]
  | c :: rest => by
    have IH := jsSplit_length p rest
    simp only [jsSplit, List.countP_cons]
    by_cases hp : p c
    · simp [hp, IH]
    · simp only [hp, Bool.false_eq_true, if_false]
      match hs : jsSplit p rest with
      | s :: ss =>
        rw [hs] at IH
        simp only [List.length_cons] at IH ⊢
        omega
      | [] => exact absurd hs (jsSplit_ne_nil p rest)

theorem jsSplit_getLastD (p : Char → Bool) :
    ∀ cs, (jsSplit p cs).getLastD [] = (cs.reverse.takeWhile (fun c => !p c)).reverse
  | [] => by simp [jsSplit]
  | c :: rest => by
    have IH := jsSplit_getLastD p rest
    by_cases hany : rest.any p
    · -- a separator occurs later: the head segment is irrelevant
      have hx : ∃ x ∈ rest.reverse, (!p x) = false := by
        rcases List.any_eq_true.mp hany with ⟨x, hx, hpx⟩
        exact ⟨x, List.mem_reverse.mpr hx, by simp [hpx]⟩
      have htw : (rest.reverse ++ [c]).takeWhile (fun c => !p c)
          = rest.reverse.takeWhile (fun c => !p c) := takeWhile_append_stop [c] hx
      simp only [List.reverse_cons, htw]
      rw [← IH]
      simp only [jsSplit]
      by_cases hp : p c
      · simp only [hp, if_true]
        exact getLastD_cons_of_ne_nil (jsSplit_ne_nil p rest) [] []
      · simp only [hp, Bool.false_eq_true, if_false]
        match hs : jsSplit p rest with
        | s :: ss =>
          have hlen := jsSplit_length p rest
          rw [hs] at hlen
          have hss : ss ≠ [] := by
            intro he
            rw [he] at hlen
            simp only [List.length_cons, List.length_nil] at hlen
            have hpos : 0 < rest.countP p :=
              List.countP_pos_iff.mpr (List.any_eq_true.mp hany)
            omega
          rw [getLastD_cons_of_ne_nil hss, getLastD_cons_of_ne_nil hss]
        | [] => exact absurd hs (jsSplit_ne_nil p rest)
    · -- no separator in the tail
      have hall : ∀ a ∈ rest.reverse, (fun c => !p c) a = true := by
        intro a ha
        have h1 : p a = false := by
          rcases Bool.eq_false_or_eq_true (p a) with h | h
          · exact absurd (List.any_eq_true.mpr ⟨a, List.mem_reverse.mp ha, h⟩) hany
          · exact h
        simp [h1]
      simp only [List.reverse_cons]
      rw [List.takeWhile_append_of_pos hall]
      simp only [jsSplit]
      rw [jsSplit_no_sep p rest (by
        rcases Bool.eq_false_or_eq_true (rest.any p) with h | h
        · exact absurd h hany
        · exact h)]
      by_cases hp : p c
      · simp [hp, List.takeWhile_cons, List.getLastD_cons]
      · simp [hp, List.takeWhile_cons, List.getLastD_cons]

/-! ## Filename extraction -/

theorem data_ne_nil_of_startsWith {v : String} {pre : String} (hp : pre.data ≠ [])
    (h : jsStartsWith v pre = true) : v.data ≠ [] := by
  intro hv
  unfold jsStartsWith at h
  rw [hv] at h
  match hd : pre.data with
  | [] => exact hp hd
  | c :: cs => rw [hd] at h; simp [listStartsWith] at h

/-- A value that is already embedded data or an absolute network URL yields
the empty filename. -/
theorem getFilename_special {v : String}
    (h : jsStartsWith v "data:" = true ∨ jsStartsWith v "http://" = true ∨
         jsStartsWith v "https://" = true) :
    getFilenameFromPath v = "" := by
  have hne : v.data ≠ [] := by
    rcases h with h | h | h
    · exact data_ne_nil_of_startsWith (by decide) h
    · exact data_ne_nil_of_startsWith (by decide) h
    · exact data_ne_nil_of_startsWith (by decide) h
  unfold getFilenameFromPath
  rcases h with h | h | h <;> simp [hne, h]

/-- C10: `getFilenameFromPath` is total and never throws: empty input,
embedded-data values and absolute http/https URLs yield `""`; otherwise the
result is the URL-decoded last path segment with query string and fragment
stripped, falling back to the undecoded segment when percent-decoding is
malformed. -/
theorem getFilenameFromPath_total_spec :
    (getFilenameFromPath "" = "")
    ∧ (∀ v : String,
        (jsStartsWith v "data:" = true ∨ jsStartsWith v "http://" = true ∨
         jsStartsWith v "https://" = true) → getFilenameFromPath v = "")
    ∧ (∀ path : String, path ≠ "" →
        jsStartsWith path "data:" = false → jsStartsWith path "http://" = false →
        jsStartsWith path "https://" = false →
        (∀ d, percentDecode (stripQuery (lastSegment path.data)) = some d →
           getFilenameFromPath path = String.mk d)
        ∧ (percentDecode (stripQuery (lastSegment path.data)) = none →
           getFilenameFromPath path = String.mk (stripQuery (lastSegment path.data)))) := by
  refine ⟨rfl, fun v h => getFilename_special h, ?_⟩
  intro path hne h1 h2 h3
  have hdata : path.data ≠ [] := by
    intro hd
    exact hne (String.ext (by rw [hd]))
  have hseg : (jsSplit (fun c => c == '/' || c == '\\') path.data).getLastD []
      = lastSegment path.data := jsSplit_getLastD _ path.data
  have hstrip : ∀ seg : List Char,
      (jsSplit (fun c => c == '?' || c == '#') seg).headD [] = stripQuery seg :=
    fun seg => jsSplit_headD _ seg
  constructor
  · intro d hd
    unfold getFilenameFromPath
    simp only [hdata, if_false, h1, h2, h3, Bool.false_or, Bool.or_self]
    rw [hseg, hstrip, hd]
    simp
  · intro hnone
    unfold getFilenameFromPath
    simp only [hdata, if_false, h1, h2, h3, Bool.false_or, Bool.or_self]
    rw [hseg, hstrip, hnone]
    simp

/-- C10 witness. -/
theorem getFilenameFromPath_total_spec_witness :
    getFilenameFromPath "a/b%20c.png?v=1" = "b c.png" := by
  have h := (getFilenameFromPath_total_spec.2.2 "a/b%20c.png?v=1"
    (by decide) (by decide) (by decide) (by decide)).1
  exact h "b c.png".data (by decide)

/-! ## Lookup strategies (stylesheet pass vs element pass) -/

/-- C5 counterexample: a double-encoded reference is resolved by the
element-attribute pass through the URL-decoded strategies, but the
stylesheet pass, lacking them, leaves the occurrence unresolved. -/
theorem cssLookup_misses_decoded_strategies :
    resolveValue spacedRegistry "my%2520image.png" = "data:image/png;base64,AA"
    ∧ cssResolveVal spacedRegistry "my%2520image.png" = "my%2520image.png"
    ∧ lookupAsset spacedRegistry "my%20image.png" = some "data:image/png;base64,AA"
    ∧ lookupAssetCss spacedRegistry "my%20image.png" = none := by
  refine ⟨by decide, by decide, by decide, by decide⟩

/-- Every stylesheet-pass hit is an element-pass hit with the same value. -/
theorem lookupAssetCss_sub (reg : Registry) (f u : String)
    (hu : lookupAssetCss reg f = some u) : lookupAsset reg f = some u := by
  unfold lookupAssetCss at hu
  unfold lookupAsset
  cases he : mapGet reg.exact f with
  | some w => rw [he] at hu; rw [hu]
  | none =>
    rw [he] at hu
    cases hl : mapGet reg.lower (jsToLower f) with
    | some w => rw [hl] at hu; rw [hu]
    | none => rw [hl] at hu; cases hu

/-- C5 (amended): the stylesheet pass shares the filename normalization and
the first two lookup strategies in order, but omits the URL-decoded
retries: every stylesheet-pass hit agrees with the element pass, and the
two lookups coincide whenever re-decoding the filename changes nothing. -/
theorem cssLookup_refines_elementLookup :
    ∀ (reg : Registry) (f : String),
      (∀ u, lookupAssetCss reg f = some u → lookupAsset reg f = some u)
      ∧ ((percentDecode f.data = some f.data ∨ percentDecode f.data = none) →
          lookupAssetCss reg f = lookupAsset reg f) := by
  intro reg f
  constructor
  · exact fun u hu => lookupAssetCss_sub reg f u hu
  · intro hdec
    unfold lookupAssetCss lookupAsset
    cases he : mapGet reg.exact f with
    | some w => rfl
    | none =>
      cases hl : mapGet reg.lower (jsToLower f) with
      | some w => rfl
      | none =>
        rcases hdec with hdec | hdec
        · simp only [hdec, he, hl]
        · simp only [hdec]

/-- C5 witness for the amended claim. -/
theorem cssLookup_refines_elementLookup_witness :
    lookupAsset spacedRegistry "my image.png" = some "data:image/png;base64,AA"
    ∧ lookupAssetCss spacedRegistry "my image.png"
        = lookupAsset spacedRegistry "my image.png" :=
  ⟨(cssLookup_refines_elementLookup spacedRegistry "my image.png").1
    "data:image/png;base64,AA" (by decide),
   (cssLookup_refines_elementLookup spacedRegistry "my image.png").2
    (Or.inl (by decide))⟩

/-! ## Idempotence of reference resolution -/

theorem lookupAsset_value_mem {reg : Registry} {f u : String}
    (h : lookupAsset reg f = some u) :
    (∃ p ∈ reg.exact, p.2 = u) ∨ ∃ p ∈ reg.lower, p.2 = u := by
  have hmap : ∀ (m : List (String × String)) (k : String),
      mapGet m k = some u → ∃ p ∈ m, p.2 = u := by
    intro m k hm
    unfold mapGet at hm
    cases hf : m.find? (fun p => p.1 == k) with
    | some p =>
      rw [hf] at hm
      simp only [Option.some.injEq] at hm
      exact ⟨p, List.mem_of_find?_eq_some hf, hm⟩
    | none => rw [hf] at hm; cases hm
  unfold lookupAsset at h
  cases h1 : mapGet reg.exact f with
  | some w =>
    simp only [h1, Option.some.injEq] at h
    exact Or.inl (hmap _ _ (h ▸ h1))
  | none =>
    simp only [h1] at h
    cases h2 : mapGet reg.lower (jsToLower f) with
    | some w =>
      simp only [h2, Option.some.injEq] at h
      exact Or.inr (hmap _ _ (h ▸ h2))
    | none =>
      simp only [h2] at h
      cases h3 : percentDecode f.data with
      | some d =>
        simp only [h3] at h
        cases h4 : mapGet reg.exact (String.mk d) with
        | some w =>
          simp only [h4, Option.some.injEq] at h
          exact Or.inl (hmap _ _ (h ▸ h4))
        | none =>
          simp only [h4] at h
          exact Or.inr (hmap _ _ h)
      | none => simp only [h3] at h; cases h

/-- A value beginning with `data:`, `http://` or `https://` is never
rewritten by either pass. -/
theorem resolve_special_fixed (reg : Registry) (v : String)
    (h : jsStartsWith v "data:" = true ∨ jsStartsWith v "http://" = true ∨
         jsStartsWith v "https://" = true) :
    resolveValue reg v = v ∧ cssResolveVal reg v = v := by
  have hfn := getFilename_special h
  have hne : v.data ≠ [] := by
    rcases h with h | h | h
    · exact data_ne_nil_of_startsWith (by decide) h
    · exact data_ne_nil_of_startsWith (by decide) h
    · exact data_ne_nil_of_startsWith (by decide) h
  constructor
  · unfold resolveValue
    rw [hfn]
    simp [hne]
  · unfold cssResolveVal
    rw [hfn]
    simp

/-- C6: reference resolution is idempotent on its own output.  The
hypotheses say every registry value is an embedded `data:` URL (which
`readFileAsDataURL` guarantees); then a rewritten value is never rewritten
again, in the element-attribute pass and in the stylesheet pass alike. -/
theorem resolution_idempotent :
    ∀ reg : Registry,
      reg.exact.all (fun p => jsStartsWith p.2 "data:") = true →
      reg.lower.all (fun p => jsStartsWith p.2 "data:") = true →
      (∀ v, (jsStartsWith v "data:" = true ∨ jsStartsWith v "http://" = true ∨
             jsStartsWith v "https://" = true) →
          resolveValue reg v = v ∧ cssResolveVal reg v = v)
      ∧ (∀ v, resolveValue reg (resolveValue reg v) = resolveValue reg v)
      ∧ (∀ v, cssResolveVal reg (cssResolveVal reg v) = cssResolveVal reg v) := by
  intro reg hex hlo
  have hval : ∀ u, ((∃ p ∈ reg.exact, p.2 = u) ∨ ∃ p ∈ reg.lower, p.2 = u) →
      jsStartsWith u "data:" = true := by
    rintro u (⟨p, hp, rfl⟩ | ⟨p, hp, rfl⟩)
    · exact List.all_eq_true.mp hex p hp
    · exact List.all_eq_true.mp hlo p hp
  refine ⟨fun v h => resolve_special_fixed reg v h, ?_, ?_⟩
  · intro v
    by_cases hv : v.data = []
    · have : resolveValue reg v = v := by unfold resolveValue; simp [hv]
      rw [this, this]
    · by_cases hfn : (getFilenameFromPath v).data = []
      · have : resolveValue reg v = v := by unfold resolveValue; simp [hv, hfn]
        rw [this, this]
      · cases hl : lookupAsset reg (getFilenameFromPath v) with
        | none =>
          have : resolveValue reg v = v := by
            unfold resolveValue
            simp only [hv, if_false, hfn, hl]
          rw [this, this]
        | some u =>
          have h1 : resolveValue reg v = u := by
            unfold resolveValue
            simp only [hv, if_false, hfn, hl]
          have hu : jsStartsWith u "data:" = true := hval u (lookupAsset_value_mem hl)
          rw [h1]
          exact (resolve_special_fixed reg u (Or.inl hu)).1
  · intro v
    by_cases hfn : (getFilenameFromPath v).data = []
    · have : cssResolveVal reg v = v := by unfold cssResolveVal; simp [hfn]
      rw [this, this]
    · cases hl : lookupAssetCss reg (getFilenameFromPath v) with
      | none =>
        have : cssResolveVal reg v = v := by
          unfold cssResolveVal
          simp [hfn, hl]
        rw [this, this]
      | some u =>
        have h1 : cssResolveVal reg v = u := by
          unfold cssResolveVal
          simp [hfn, hl]
        have hu : jsStartsWith u "data:" = true := by
          refine hval u ?_
          exact lookupAsset_value_mem
            (lookupAssetCss_sub reg (getFilenameFromPath v) u hl)
        rw [h1]
        exact (resolve_special_fixed reg u (Or.inl hu)).2

/-- C6 witness. -/
theorem resolution_idempotent_witness :
    resolveValue dataRegistry (resolveValue dataRegistry "a.png")
      = resolveValue dataRegistry "a.png" :=
  (resolution_idempotent dataRegistry (by decide) (by decide)).2.1 "a.png"

/-! ## Dimension extraction -/

/-- C4 counterexample: a `viewBox` with a negative width is kept as-is; the
attribute fallback promised for non-positive components does not fire. -/
theorem dims_negative_viewBox_kept :
    extractDims (some [some 0, some 0, some (-5), some 10])
        (some (some 100)) (some (some 200)) = (-5, 10)
    ∧ ((-5 : ℚ) ≤ 0)
    ∧ extractDims (some [some 0, some 0, some (-5), some 10])
        (some (some 100)) (some (some 200)) ≠ (100, 200) := by
  refine ⟨by decide, by decide, by decide⟩

/-- C4 (amended): the attribute fallback fires exactly in the JS-falsy
cases — the `viewBox` is absent, malformed (not four parts), or has a zero
or non-numeric width/height component — and not for negative components,
which are kept; a dimension still unresolved after both sources defaults
(595 for width, 842 for height), and a document lacking both sources
yields exactly 595×842. -/
theorem dims_fallback_spec :
    (extractDims none none none = (595, 842))
    ∧ (∀ (parts : List JNum) (w h : ℚ) (wa ha : Option JNum),
        parts.length = 4 → parts.getD 2 (some 0) = some w → w ≠ 0 →
        parts.getD 3 (some 0) = some h → h ≠ 0 →
        extractDims (some parts) wa ha = (w, h))
    ∧ (∀ (w h : ℚ), w ≠ 0 → h ≠ 0 →
        extractDims none (some (some w)) (some (some h)) = (w, h))
    ∧ (∀ (parts : List JNum) (w h : ℚ), parts.length ≠ 4 → w ≠ 0 → h ≠ 0 →
        extractDims (some parts) (some (some w)) (some (some h)) = (w, h))
    ∧ (∀ (parts : List JNum) (w h : ℚ), parts.length = 4 →
        (parts.getD 2 (some 0) = some 0 ∨ parts.getD 2 (some 0) = none ∨
         parts.getD 3 (some 0) = some 0 ∨ parts.getD 3 (some 0) = none) →
        w ≠ 0 → h ≠ 0 →
        extractDims (some parts) (some (some w)) (some (some h)) = (w, h))
    ∧ (∀ (viewBox : Option (List JNum)) (wa ha : Option JNum),
        (viewBox = none ∨ (∃ parts, viewBox = some parts ∧ parts.length ≠ 4) ∨
         (∃ parts, viewBox = some parts ∧ parts.length = 4 ∧
           (parts.getD 2 (some 0) = some 0 ∨ parts.getD 2 (some 0) = none) ∧
           (parts.getD 3 (some 0) = some 0 ∨ parts.getD 3 (some 0) = none))) →
        (wa = none ∨ wa = some none ∨ wa = some (some 0)) →
        (ha = none ∨ ha = some none ∨ ha = some (some 0)) →
        extractDims viewBox wa ha = (595, 842))
    ∧ (∀ (w : ℚ) (ha : Option JNum), w ≠ 0 →
        (ha = none ∨ ha = some none ∨ ha = some (some 0)) →
        extractDims none (some (some w)) ha = (w, 842))
    ∧ (∀ (h : ℚ) (wa : Option JNum), h ≠ 0 →
        (wa = none ∨ wa = some none ∨ wa = some (some 0)) →
        extractDims none wa (some (some h)) = (595, h)) := by
  refine ⟨by decide, ?_, ?_, ?_, ?_, ?_, ?_, ?_⟩
  · intro parts w h wa ha hlen hw hw0 hh hh0
    unfold extractDims
    simp only [hlen, if_true, hw, hh, jfalsy]
    have hwb : (w == 0) = false := by simp [hw0]
    have hhb : (h == 0) = false := by simp [hh0]
    simp [hwb, hhb]
  · intro w h hw0 hh0
    unfold extractDims
    simp only [jfalsy]
    have hwb : (w == 0) = false := by simp [hw0]
    have hhb : (h == 0) = false := by simp [hh0]
    simp [hwb, hhb]
  · intro parts w h hlen hw0 hh0
    unfold extractDims
    simp only [hlen, if_false, jfalsy]
    have hwb : (w == 0) = false := by simp [hw0]
    have hhb : (h == 0) = false := by simp [hh0]
    simp [hwb, hhb]
  · intro parts w h hlen hfal hw0 hh0
    unfold extractDims
    simp only [hlen, if_true, jfalsy]
    have hwb : (w == 0) = false := by simp [hw0]
    have hhb : (h == 0) = false := by simp [hh0]
    rcases hfal with hf | hf | hf | hf <;> simp only [hf] <;> simp [hwb, hhb]
  · intro viewBox wa ha hvb hwa hha
    rcases hvb with rfl | ⟨parts, rfl, hlen⟩ | ⟨parts, rfl, hlen, hw, hh⟩
    · rcases hwa with rfl | rfl | rfl <;> rcases hha with rfl | rfl | rfl <;> decide
    · unfold extractDims
      simp only [hlen, if_false, jfalsy]
      rcases hwa with rfl | rfl | rfl <;> rcases hha with rfl | rfl | rfl <;> simp
    · unfold extractDims
      simp only [hlen, if_true, jfalsy]
      rcases hw with hw | hw <;> rcases hh with hh | hh <;>
        rcases hwa with rfl | rfl | rfl <;> rcases hha with rfl | rfl | rfl <;>
          simp only [hw, hh] <;> simp
  · intro w ha hw0 hha
    unfold extractDims
    simp only [jfalsy]
    have hwb : (w == 0) = false := by simp [hw0]
    rcases hha with rfl | rfl | rfl <;> simp [hwb]
  · intro h wa hh0 hwa
    unfold extractDims
    simp only [jfalsy]
    have hhb : (h == 0) = false := by simp [hh0]
    rcases hwa with rfl | rfl | rfl <;> simp [hhb]

/-- C4 witness for the amended claim: a zero viewBox width fires the
attribute fallback. -/
theorem dims_fallback_spec_witness :
    extractDims (some [some 0, some 0, some 0, some 10]) (some (some 100))
        (some (some 200)) = (100, 200) :=
  dims_fallback_spec.2.2.2.2.1 [some 0, some 0, some 0, some 10] 100 200
    rfl (Or.inl rfl) (by decide) (by decide)

/-! ## Spread layout slot formulas -/

theorem contentIndices_cover_spacer (k : Nat) :
    contentIndices k true true
      = (if 1 + ((k : Int) - 1) * 2 - 1 = 0 then ((-1 : Int), 1 + ((k : Int) - 1) * 2, true)
         else (1 + ((k : Int) - 1) * 2 - 1, 1 + ((k : Int) - 1) * 2, false)) := by
  unfold contentIndices
  simp

theorem contentIndices_cover_noSpacer (k : Nat) :
    contentIndices k true false
      = (1 + ((k : Int) - 1) * 2, 1 + ((k : Int) - 1) * 2 + 1, false) := by
  unfold contentIndices
  simp

theorem contentIndices_noCover_spacer (k : Nat) :
    contentIndices k false true
      = ((k : Int) * 2 - 1, (k : Int) * 2, decide ((k : Int) * 2 - 1 < 0)) := by
  unfold contentIndices
  simp

theorem contentIndices_noCover_noSpacer (k : Nat) :
    contentIndices k false false = ((k : Int) * 2, (k : Int) * 2 + 1, false) := by
  unfold contentIndices
  simp

theorem displayedPages_content {pages : List ProcessedPage} {k : Nat} {hc us : Bool}
    (hlen : ¬pages.length = 0) (hcond : ¬(hc = true ∧ k = 0)) :
    displayedPages pages k hc us
      = ⟨pageAt pages (contentIndices k hc us).1, pageAt pages (contentIndices k hc us).2.1,
         false, (contentIndices k hc us).2.2⟩ := by
  unfold displayedPages
  rw [if_neg hlen, if_neg hcond]

theorem pageAt_neg {pages : List ProcessedPage} {i : Int}
    (h : i < 0 ∨ (pages.length : Int) ≤ i) : pageAt pages i = none := by
  unfold pageAt
  rw [if_neg]
  rintro ⟨h1, h2⟩
  rcases h with h | h <;> omega

/-- C2: the slot formulas of the spread layout on a non-empty page list:
the cover rule, the content rules with and without cover and spacer
(`c = spreadIndex − 1`), and out-of-range positions resolving to empty. -/
theorem spreadLayout_slot_formulas :
    ∀ (pages : List ProcessedPage) (k : Nat) (hc us : Bool), pages ≠ [] →
      ((hc = true ∧ k = 0) →
        displayedPages pages k hc us = ⟨none, pageAt pages 0, true, false⟩)
      ∧ (∀ c : Nat, hc = true → us = true → k = c + 1 →
          ((1 + 2 * (c : Int) - 1 = 0 →
            displayedPages pages k hc us
              = ⟨none, pageAt pages (1 + 2 * (c : Int)), false, true⟩)
          ∧ (1 + 2 * (c : Int) - 1 ≠ 0 →
            displayedPages pages k hc us
              = ⟨pageAt pages (1 + 2 * (c : Int) - 1), pageAt pages (1 + 2 * (c : Int)),
                 false, false⟩)))
      ∧ (∀ c : Nat, hc = true → us = false → k = c + 1 →
          displayedPages pages k hc us
            = ⟨pageAt pages (1 + 2 * (c : Int)), pageAt pages (1 + 2 * (c : Int) + 1),
               false, false⟩)
      ∧ (hc = false → us = true →
          ((2 * (k : Int) - 1 < 0 →
            displayedPages pages k hc us
              = ⟨none, pageAt pages (2 * (k : Int)), false, true⟩)
          ∧ (0 ≤ 2 * (k : Int) - 1 →
            displayedPages pages k hc us
              = ⟨pageAt pages (2 * (k : Int) - 1), pageAt pages (2 * (k : Int)),
                 false, false⟩)))
      ∧ (hc = false → us = false →
          displayedPages pages k hc us
            = ⟨pageAt pages (2 * (k : Int)), pageAt pages (2 * (k : Int) + 1),
               false, false⟩)
      ∧ (∀ i : Int, (i < 0 ∨ (pages.length : Int) ≤ i) → pageAt pages i = none) := by
  intro pages k hc us hne
  have hlen : ¬(pages.length = 0) := by
    intro h
    exact hne (List.length_eq_zero.mp h)
  refine ⟨?_, ?_, ?_, ?_, ?_, fun i hi => pageAt_neg hi⟩
  · rintro ⟨rfl, rfl⟩
    unfold displayedPages
    rw [if_neg hlen, if_pos ⟨rfl, rfl⟩]
    have h0 : pageAt pages 0 = pages.head? := by
      unfold pageAt
      rw [if_pos ⟨Int.le_refl 0, by exact_mod_cast Nat.pos_of_ne_zero hlen⟩,
        List.head?_eq_getElem?]
      rfl
    rw [h0]
  · rintro c rfl rfl rfl
    have hcond : ¬((true : Bool) = true ∧ c + 1 = 0) := by simp
    have hci := contentIndices_cover_spacer (c + 1)
    constructor
    · intro h0
      have hz : 1 + (((c + 1 : Nat) : Int) - 1) * 2 - 1 = 0 := by push_cast; omega
      rw [hz, if_pos rfl] at hci
      rw [displayedPages_content hlen hcond, hci]
      have e1 : pageAt pages (-1) = none := pageAt_neg (Or.inl (by omega))
      have e2 : 1 + (((c + 1 : Nat) : Int) - 1) * 2 = 1 + 2 * (c : Int) := by
        push_cast; ring
      simp only [e1, e2]
    · intro hne0
      have hz : ¬(1 + (((c + 1 : Nat) : Int) - 1) * 2 - 1 = 0) := by push_cast; omega
      rw [if_neg hz] at hci
      rw [displayedPages_content hlen hcond, hci]
      have e1 : 1 + (((c + 1 : Nat) : Int) - 1) * 2 - 1 = 1 + 2 * (c : Int) - 1 := by
        push_cast; ring
      have e2 : 1 + (((c + 1 : Nat) : Int) - 1) * 2 = 1 + 2 * (c : Int) := by
        push_cast; ring
      simp only [e1, e2]
  · rintro c rfl rfl rfl
    have hcond : ¬((true : Bool) = true ∧ c + 1 = 0) := by simp
    rw [displayedPages_content hlen hcond, contentIndices_cover_noSpacer (c + 1)]
    have e1 : 1 + (((c + 1 : Nat) : Int) - 1) * 2 = 1 + 2 * (c : Int) := by
      push_cast; ring
    simp only [e1]
  · rintro rfl rfl
    have hcond : ¬((false : Bool) = true ∧ k = 0) := by simp
    have hci := contentIndices_noCover_spacer k
    constructor
    · intro hneg
      rw [displayedPages_content hlen hcond, hci]
      have e1 : (k : Int) * 2 = 2 * (k : Int) := by ring
      have e2 : pageAt pages ((k : Int) * 2 - 1) = none :=
        pageAt_neg (Or.inl (by omega))
      have e3 : decide ((k : Int) * 2 - 1 < 0) = true := by
        simp only [decide_eq_true_eq]
        omega
      rw [e2, e3, e1]
    · intro hpos
      rw [displayedPages_content hlen hcond, hci]
      have e1 : (k : Int) * 2 = 2 * (k : Int) := by ring
      have e2 : (k : Int) * 2 - 1 = 2 * (k : Int) - 1 := by ring
      have e3 : decide ((k : Int) * 2 - 1 < 0) = false := by
        simp only [decide_eq_false_iff_not]
        omega
      rw [e3, e2, e1]
  · rintro rfl rfl
    have hcond : ¬((false : Bool) = true ∧ k = 0) := by simp
    rw [displayedPages_content hlen hcond, contentIndices_noCover_noSpacer k]
    have e1 : (k : Int) * 2 = 2 * (k : Int) := by ring
    simp only [e1]

/-- C2 witness. -/
theorem spreadLayout_slot_formulas_witness :
    displayedPages [samplePage] 0 true true
      = ⟨none, pageAt [samplePage] 0, true, false⟩ :=
  (spreadLayout_slot_formulas [samplePage] 0 true true (by decide)).1 ⟨rfl, rfl⟩

/-! ## Total spread count -/

/-- C1: the total-spread-count function is off by one on a one-page book in
cover mode with the spacer enabled: it reports 2 spreads, yet spread index
1 (strictly below the count) shows no real page — only the spacer slot. -/
theorem totalSpreads_gap_single_cover_page :
    totalSpreads 1 true true = 2
    ∧ (1 : Nat) < totalSpreads 1 true true
    ∧ hasRealPage (displayedPages [samplePage] 1 true true) = false
    ∧ displayedPages [samplePage] 1 true true = ⟨none, none, false, true⟩
    ∧ hasRealPage (displayedPages [samplePage] 0 true true) = true
    ∧ hasRealPage (displayedPages [samplePage] 2 true true) = false := by
  refine ⟨rfl, by decide, by decide, by decide, by decide, by decide⟩

/-! ## Natural ordering: comparison laws -/

theorem natCompare_eq' {a b : Nat} (h : compare a b = Ordering.eq) : a = b :=
  Nat.compare_eq_eq.mp h

theorem natCompare_lt_trans {a b c : Nat} (h1 : compare a b = Ordering.lt)
    (h2 : compare b c = Ordering.lt) : compare a c = Ordering.lt :=
  Nat.compare_eq_lt.mpr (Nat.lt_trans (Nat.compare_eq_lt.mp h1) (Nat.compare_eq_lt.mp h2))

theorem lexCmp_swap {α : Type} (cmp : α → α → Ordering)
    (hS : ∀ a b, cmp a b = (cmp b a).swap) :
    ∀ xs ys, lexCmp cmp xs ys = (lexCmp cmp ys xs).swap
  | [], [] => rfl
  | [], _ :: _ => rfl
  | _ :: _, [] => rfl
  | a :: as, b :: bs => by
    simp only [lexCmp]
    rw [hS a b]
    cases hba : cmp b a with
    | eq => simp [Ordering.swap, lexCmp_swap cmp hS as bs]
    | lt => simp [Ordering.swap]
    | gt => simp [Ordering.swap]

theorem lexCmp_eq_ext {α : Type} (cmp : α → α → Ordering)
    (hE : ∀ a b, cmp a b = Ordering.eq → a = b) :
    ∀ xs ys, lexCmp cmp xs ys = Ordering.eq → xs = ys
  | [], [], _ => rfl
  | [], _ :: _, h => by simp [lexCmp] at h
  | _ :: _, [], h => by simp [lexCmp] at h
  | a :: as, b :: bs, h => by
    simp only [lexCmp] at h
    cases hab : cmp a b with
    | eq =>
      rw [hab] at h
      rw [hE a b hab, lexCmp_eq_ext cmp hE as bs h]
    | lt => rw [hab] at h; cases h
    | gt => rw [hab] at h; cases h

theorem lexCmp_lt_trans {α : Type} (cmp : α → α → Ordering)
    (hE : ∀ a b, cmp a b = Ordering.eq → a = b)
    (hT : ∀ a b c, cmp a b = Ordering.lt → cmp b c = Ordering.lt → cmp a c = Ordering.lt) :
    ∀ xs ys zs, lexCmp cmp xs ys = Ordering.lt → lexCmp cmp ys zs = Ordering.lt →
      lexCmp cmp xs zs = Ordering.lt
  | [], ys, zs, h1, h2 => by
    match ys, zs with
    | [], _ => cases h1
    | _ :: _, [] => cases h2
    | _ :: _, _ :: _ => simp [lexCmp]
  | _ :: _, [], _, h1, _ => by cases h1
  | _ :: _, _ :: _, [], _, h2 => by cases h2
  | a :: as, b :: bs, c :: cs, h1, h2 => by
    simp only [lexCmp] at h1 h2 ⊢
    cases hab : cmp a b with
    | lt =>
      cases hbc : cmp b c with
      | lt => rw [hT a b c hab hbc]
      | eq => rw [← hE b c hbc, hab]
      | gt => rw [hbc] at h2; cases h2
    | eq =>
      rw [hab] at h1
      cases hbc : cmp b c with
      | lt => rw [hE a b hab, hbc]
      | eq =>
        rw [hbc] at h2
        rw [hE a b hab, hbc]
        exact lexCmp_lt_trans cmp hE hT as bs cs h1 h2
      | gt => rw [hbc] at h2; cases h2
    | gt => rw [hab] at h1; cases h1

theorem tokCmp_swap : ∀ a b : Tok, tokCmp a b = (tokCmp b a).swap
  | .num a, .num b => (Nat.compare_swap b a).symm
  | .num _, .str _ => rfl
  | .str _, .num _ => rfl
  | .str a, .str b => lexCmp_swap compare (fun x y => (Nat.compare_swap y x).symm) a b

theorem tokCmp_eq_ext : ∀ a b : Tok, tokCmp a b = Ordering.eq → a = b
  | .num a, .num b, h => by rw [natCompare_eq' h]
  | .num _, .str _, h => by cases h
  | .str _, .num _, h => by cases h
  | .str a, .str b, h => by
    rw [lexCmp_eq_ext compare (fun x y hxy => natCompare_eq' hxy) a b h]

theorem tokCmp_lt_trans : ∀ a b c : Tok, tokCmp a b = Ordering.lt →
    tokCmp b c = Ordering.lt → tokCmp a c = Ordering.lt
  | .num a, .num b, .num c, h1, h2 => natCompare_lt_trans h1 h2
  | .num _, .num _, .str _, _, _ => rfl
  | .num _, .str _, .num _, _, h2 => by cases h2
  | .num _, .str _, .str _, _, _ => rfl
  | .str _, .num _, _, h1, _ => by cases h1
  | .str _, .str _, .num _, _, h2 => by cases h2
  | .str a, .str b, .str c, h1, h2 =>
    lexCmp_lt_trans compare (fun x y hxy => natCompare_eq' hxy)
      (fun x y z hx hy => natCompare_lt_trans hx hy) a b c h1 h2

theorem natCmp_swap (a b : String) : natCmp a b = (natCmp b a).swap :=
  lexCmp_swap tokCmp tokCmp_swap (tokenize a) (tokenize b)

theorem natCmp_eq_tokens {a b : String} (h : natCmp a b = Ordering.eq) :
    tokenize a = tokenize b :=
  lexCmp_eq_ext tokCmp tokCmp_eq_ext (tokenize a) (tokenize b) h

theorem natCmp_lt_trans {a b c : String} (h1 : natCmp a b = Ordering.lt)
    (h2 : natCmp b c = Ordering.lt) : natCmp a c = Ordering.lt :=
  lexCmp_lt_trans tokCmp tokCmp_eq_ext tokCmp_lt_trans _ _ _ h1 h2

instance : IsTotal ProcessedPage pageLe := by
  constructor
  intro a b
  unfold pageLe
  cases h : natCmp a.name b.name with
  | lt => exact Or.inl (by simp [h])
  | eq => exact Or.inl (by simp [h])
  | gt =>
    refine Or.inr ?_
    have hs := natCmp_swap a.name b.name
    rw [h] at hs
    intro hcon
    rw [hcon] at hs
    cases hs

instance : IsTrans ProcessedPage pageLe := by
  constructor
  intro a b c hab hbc
  unfold pageLe at hab hbc ⊢
  cases h1 : natCmp a.name b.name with
  | gt => exact absurd h1 hab
  | lt =>
    cases h2 : natCmp b.name c.name with
    | gt => exact absurd h2 hbc
    | lt => rw [natCmp_lt_trans h1 h2]; intro hcon; cases hcon
    | eq =>
      have ht := natCmp_eq_tokens h2
      unfold natCmp
      rw [← ht]
      unfold natCmp at h1
      rw [h1]
      intro hcon; cases hcon
  | eq =>
    have ht := natCmp_eq_tokens h1
    unfold natCmp
    rw [ht]
    exact hbc

/-! ## The Page Sequencer -/

theorem assignFrom_map_name : ∀ (i : Nat) (l : List ProcessedPage),
    (assignFrom i l).map (fun p => p.name) = l.map (fun p => p.name)
  | _, [] => rfl
  | i, p :: ps => by
    simp only [assignFrom, List.map_cons, assignFrom_map_name (i + 1) ps]

theorem assignFrom_map_index : ∀ (i : Nat) (l : List ProcessedPage),
    (assignFrom i l).map (fun p => p.index) = List.range' i l.length
  | _, [] => rfl
  | i, p :: ps => by
    simp only [assignFrom, List.map_cons, assignFrom_map_index (i + 1) ps,
      List.length_cons, List.range'_succ]

/-- C3: the Page Sequencer orders the page records by the natural-order
comparator (no adjacent-out-of-order pair, hence, by transitivity, a fully
sorted sequence) and reassigns the dense indices 0..N−1 in sorted order;
the inputs `page10.svg, page2.svg, page1.svg` come out as
`page1.svg, page2.svg, page10.svg` with indices 0, 1, 2. -/
theorem sequencer_sorted_and_indexed :
    ∀ ps : List ProcessedPage,
      List.Pairwise (fun s t => natCmp s t ≠ Ordering.gt)
        ((sequencePages ps).map (fun p => p.name))
      ∧ (sequencePages ps).map (fun p => p.index) = List.range ps.length
      ∧ sequencePages [⟨"page10.svg", 0⟩, ⟨"page2.svg", 0⟩, ⟨"page1.svg", 0⟩]
          = [⟨"page1.svg", 0⟩, ⟨"page2.svg", 1⟩, ⟨"page10.svg", 2⟩] := by
  intro ps
  refine ⟨?_, ?_, by decide⟩
  · unfold sequencePages
    rw [assignFrom_map_name]
    have hs : List.Sorted pageLe (List.insertionSort pageLe ps) :=
      List.sorted_insertionSort pageLe ps
    refine List.Pairwise.map (fun p : ProcessedPage => p.name) ?_ hs
    intro a b hab
    exact hab
  · unfold sequencePages
    rw [assignFrom_map_index, List.length_insertionSort, List.range_eq_range']

/-! ## Fatal-error atomicity of ingestion -/

theorem exMapM_err {α β : Type} (f : α → Except String β) :
    ∀ l : List α, (∃ x ∈ l, ∃ m, f x = Except.error m) →
      ∃ m2, exMapM f l = Except.error m2
  | [], h => by simp at h
  | a :: as, h => by
    simp only [exMapM]
    cases hfa : f a with
    | error e => exact ⟨e, rfl⟩
    | ok b =>
      rcases h with ⟨x, hx, m, hm⟩
      rcases List.mem_cons.mp hx with rfl | hx'
      · rw [hfa] at hm; cases hm
      · rcases exMapM_err f as ⟨x, hx', m, hm⟩ with ⟨m2, hm2⟩
        rw [hm2]
        exact ⟨m2, rfl⟩

theorem exMapM_ok {α β : Type} (f : α → Except String β) :
    ∀ l : List α, (∀ x ∈ l, ∃ b, f x = Except.ok b) →
      ∃ bs, exMapM f l = Except.ok bs
  | [], _ => ⟨[], rfl⟩
  | a :: as, h => by
    simp only [exMapM]
    rcases h a (List.mem_cons_self a as) with ⟨b, hb⟩
    rw [hb]
    rcases exMapM_ok f as (fun x hx => h x (List.mem_cons_of_mem a hx)) with ⟨bs, hbs⟩
    rw [hbs]
    exact ⟨b :: bs, rfl⟩

theorem entriesHaveError_exists : ∀ l : List FsEntry,
    entriesHaveError l = true → ∃ x ∈ l, entryHasError x = true
  | [], h => by simp [entriesHaveError] at h
  | e :: es, h => by
    simp only [entriesHaveError, Bool.or_eq_true] at h
    rcases h with h | h
    · exact ⟨e, List.mem_cons_self e es, h⟩
    · rcases entriesHaveError_exists es h with ⟨x, hx, hxe⟩
      exact ⟨x, List.mem_cons_of_mem e hx, hxe⟩

theorem batchesHaveError_char : ∀ bs : List (Except String (List FsEntry)),
    batchesHaveError bs = true →
      (∃ m, readAllEntries bs = Except.error m) ∨
      (∃ es, readAllEntries bs = Except.ok es ∧ ∃ x ∈ es, entryHasError x = true)
  | [], h => by simp [batchesHaveError] at h
  | .error e :: rest, _ => Or.inl ⟨e, rfl⟩
  | .ok [] :: rest, h => by simp [batchesHaveError] at h
  | .ok (y :: ys) :: rest, h => by
    simp only [batchesHaveError, Bool.or_eq_true] at h
    rcases h with h | h
    · rcases entriesHaveError_exists (y :: ys) h with ⟨x, hx, hxe⟩
      cases hr : readAllEntries rest with
      | error m => exact Or.inl ⟨m, by simp [readAllEntries, hr]⟩
      | ok tail =>
        refine Or.inr ⟨y :: ys ++ tail, by simp [readAllEntries, hr], x, ?_, hxe⟩
        rcases List.mem_cons.mp hx with rfl | hx'
        · exact List.mem_cons_self _ _
        · exact List.mem_cons_of_mem _ (List.mem_append_left tail hx')
    · rcases batchesHaveError_char rest h with ⟨m, hm⟩ | ⟨es, hes, x, hx, hxe⟩
      · exact Or.inl ⟨m, by simp [readAllEntries, hm]⟩
      · refine Or.inr ⟨y :: ys ++ es, by simp [readAllEntries, hes], x, ?_, hxe⟩
        exact List.mem_cons_of_mem _ (List.mem_append_right ys hx)

theorem travEntry_err : ∀ e : FsEntry, entryHasError e = true →
    ∃ m, travEntry e = Except.error m
  | .file (.error e), _ => ⟨e, by simp [travEntry]⟩
  | .file (.ok f), h => by simp [entryHasError] at h
  | .dir batches, h => by
    simp only [entryHasError] at h
    rcases batchesHaveError_char batches h with ⟨m, hm⟩ | ⟨es, hes, x, hx, hxe⟩
    · refine ⟨m, ?_⟩
      simp only [travEntry]
      split
      · next e2 heq => rw [hm] at heq; cases heq; rfl
      · next entries heq => rw [hm] at heq; cases heq
    · have hrec := travEntry_err x hxe
      rcases hrec with ⟨m, hm⟩
      have herr : ∃ m2, exMapM (fun ch => travEntry ch.1) es.attach = Except.error m2 := by
        refine exMapM_err _ es.attach ⟨⟨x, hx⟩, List.mem_attach es ⟨x, hx⟩, m, ?_⟩
        exact hm
      rcases herr with ⟨m2, hm2⟩
      refine ⟨m2, ?_⟩
      simp only [travEntry]
      split
      · next e2 heq => rw [hes] at heq; cases heq
      · next entries heq =>
        rw [hes] at heq
        cases heq
        rw [hm2]
termination_by e => sizeOf e
decreasing_by
  have hlt := readAll_size batches es hes x hx
  simp only [FsEntry.dir.sizeOf_spec]
  omega

/-- C7: if any directory listing fails, any entry read fails during
traversal, or any surviving document's raw text read fails, the whole
ingestion operation rejects with an error — no partial page list exists. -/
theorem processFiles_fatal_atomic :
    ∀ items : List DropItem,
      ((∃ i ∈ items, itemHasError i = true) ∨
       (∃ fs, collectFromItems items = Except.ok fs ∧
          ∃ f ∈ fs, notHidden f = true ∧ isSvg f = true ∧
            ∃ m, f.textContent = Except.error m)) →
      ∃ m, processFilesE items = Except.error m := by
  intro items h
  rcases h with ⟨i, hi, hie⟩ | ⟨fs, hfs, f, hf, hnh, hsvg, m, hm⟩
  · -- a traversal error: the collection phase rejects
    have hentry : ∃ e, i = DropItem.entry e ∧ entryHasError e = true := by
      cases i with
      | entry e => exact ⟨e, rfl, hie⟩
      | plainFile f => simp [itemHasError] at hie
      | other => simp [itemHasError] at hie
    rcases hentry with ⟨e, rfl, he⟩
    have hmem : e ∈ items.filterMap itemEntry := by
      apply List.mem_filterMap.mpr
      exact ⟨DropItem.entry e, hi, rfl⟩
    rcases travEntry_err e he with ⟨m, hm⟩
    rcases exMapM_err travEntry _ ⟨e, hmem, m, hm⟩ with ⟨m2, hm2⟩
    refine ⟨m2, ?_⟩
    unfold processFilesE collectFromItems
    rw [hm2]
  · -- a document read error: the per-document loop rejects
    have hmem : f ∈ (fs.filter notHidden).filter isSvg := by
      apply List.mem_filter.mpr
      exact ⟨List.mem_filter.mpr ⟨hf, hnh⟩, hsvg⟩
    have hdoc : ∃ m, readDocument f = Except.error m := by
      refine ⟨m, ?_⟩
      unfold readDocument
      rw [hm]
    rcases exMapM_err readDocument _ ⟨f, hmem, hdoc⟩ with ⟨m2, hm2⟩
    refine ⟨m2, ?_⟩
    unfold processFilesE
    rw [hfs]
    simp only [hm2]

/-- C7 witness: a drop whose only item is a directory with a failing
listing. -/
theorem processFiles_fatal_atomic_witness :
    ∃ m, processFilesE [badListingItem] = Except.error m :=
  processFiles_fatal_atomic [badListingItem]
    (Or.inl ⟨badListingItem, List.mem_cons_self _ _, rfl⟩)

/-! ## Lenient asset registry -/

theorem mapGet_mapSet (m : List (String × String)) (k v n : String) :
    mapGet (mapSet m k v) n = if k == n then some v else mapGet m n := by
  unfold mapSet mapGet
  by_cases hk : (k == n) = true
  · simp [List.find?_cons, hk]
  · simp [List.find?_cons, hk]

theorem buildRegistry_keys_aux :
    ∀ (assets : List RawFile) (m : Registry) (n : String),
      ((mapGet (assets.foldl encodeAsset m).exact n).isSome = true ↔
        (∃ f ∈ assets, (∃ u, f.dataUrlContent = Except.ok u) ∧ f.name = n) ∨
        (mapGet m.exact n).isSome = true)
      ∧ ((mapGet (assets.foldl encodeAsset m).lower n).isSome = true ↔
        (∃ f ∈ assets, (∃ u, f.dataUrlContent = Except.ok u) ∧ jsToLower f.name = n) ∨
        (mapGet m.lower n).isSome = true)
  | [], m, n => by simp
  | f :: fs, m, n => by
    have IH := buildRegistry_keys_aux fs (encodeAsset m f) n
    simp only [List.foldl_cons]
    constructor
    · rw [IH.1]
      constructor
      · rintro (⟨g, hg, hu, hn⟩ | hkey)
        · exact Or.inl ⟨g, List.mem_cons_of_mem f hg, hu, hn⟩
        · cases hdu : f.dataUrlContent with
          | ok u =>
            rw [show encodeAsset m f = ⟨mapSet m.exact f.name u,
                mapSet m.lower (jsToLower f.name) u⟩ by unfold encodeAsset; rw [hdu]] at hkey
            simp only [mapGet_mapSet] at hkey
            by_cases hfn : f.name == n
            · exact Or.inl ⟨f, List.mem_cons_self f fs, ⟨u, hdu⟩, by
                exact beq_iff_eq.mp hfn⟩
            · rw [if_neg hfn] at hkey
              exact Or.inr hkey
          | error e =>
            rw [show encodeAsset m f = m by unfold encodeAsset; rw [hdu]] at hkey
            exact Or.inr hkey
      · rintro (⟨g, hg, ⟨u, hu⟩, hn⟩ | hkey)
        · rcases List.mem_cons.mp hg with rfl | hg'
          · refine Or.inr ?_
            rw [show encodeAsset m g = ⟨mapSet m.exact g.name u,
                mapSet m.lower (jsToLower g.name) u⟩ by unfold encodeAsset; rw [hu]]
            simp only [mapGet_mapSet]
            rw [if_pos (by exact beq_iff_eq.mpr hn)]
            rfl
          · exact Or.inl ⟨g, hg', ⟨u, hu⟩, hn⟩
        · refine Or.inr ?_
          cases hdu : f.dataUrlContent with
          | ok u =>
            rw [show encodeAsset m f = ⟨mapSet m.exact f.name u,
                mapSet m.lower (jsToLower f.name) u⟩ by unfold encodeAsset; rw [hdu]]
            simp only [mapGet_mapSet]
            by_cases hfn : f.name == n
            · rw [if_pos hfn]; rfl
            · rw [if_neg hfn]; exact hkey
          | error e =>
            rw [show encodeAsset m f = m by unfold encodeAsset; rw [hdu]]
            exact hkey
    · rw [IH.2]
      constructor
      · rintro (⟨g, hg, hu, hn⟩ | hkey)
        · exact Or.inl ⟨g, List.mem_cons_of_mem f hg, hu, hn⟩
        · cases hdu : f.dataUrlContent with
          | ok u =>
            rw [show encodeAsset m f = ⟨mapSet m.exact f.name u,
                mapSet m.lower (jsToLower f.name) u⟩ by unfold encodeAsset; rw [hdu]] at hkey
            simp only [mapGet_mapSet] at hkey
            by_cases hfn : jsToLower f.name == n
            · exact Or.inl ⟨f, List.mem_cons_self f fs, ⟨u, hdu⟩, by
                exact beq_iff_eq.mp hfn⟩
            · rw [if_neg hfn] at hkey
              exact Or.inr hkey
          | error e =>
            rw [show encodeAsset m f = m by unfold encodeAsset; rw [hdu]] at hkey
            exact Or.inr hkey
      · rintro (⟨g, hg, ⟨u, hu⟩, hn⟩ | hkey)
        · rcases List.mem_cons.mp hg with rfl | hg'
          · refine Or.inr ?_
            rw [show encodeAsset m g = ⟨mapSet m.exact g.name u,
                mapSet m.lower (jsToLower g.name) u⟩ by unfold encodeAsset; rw [hu]]
            simp only [mapGet_mapSet]
            rw [if_pos (by exact beq_iff_eq.mpr hn)]
            rfl
          · exact Or.inl ⟨g, hg', ⟨u, hu⟩, hn⟩
        · refine Or.inr ?_
          cases hdu : f.dataUrlContent with
          | ok u =>
            rw [show encodeAsset m f = ⟨mapSet m.exact f.name u,
                mapSet m.lower (jsToLower f.name) u⟩ by unfold encodeAsset; rw [hdu]]
            simp only [mapGet_mapSet]
            by_cases hfn : jsToLower f.name == n
            · rw [if_pos hfn]; rfl
            · rw [if_neg hfn]; exact hkey
          | error e =>
            rw [show encodeAsset m f = m by unfold encodeAsset; rw [hdu]]
            exact hkey

/-- C8: a failed asset read leaves that asset out of both registry maps —
a key is present exactly when some successfully read asset bears it — and
asset failures never fail the build: whenever collection succeeds and every
surviving document's text is readable, the pipeline succeeds regardless of
the assets' read results. -/
theorem assetRegistry_lenient :
    ∀ (assets : List RawFile) (n : String),
      ((mapGet (buildRegistry assets).exact n).isSome = true ↔
        ∃ f ∈ assets, (∃ u, f.dataUrlContent = Except.ok u) ∧ f.name = n)
      ∧ ((mapGet (buildRegistry assets).lower n).isSome = true ↔
        ∃ f ∈ assets, (∃ u, f.dataUrlContent = Except.ok u) ∧ jsToLower f.name = n)
      ∧ (∀ (items : List DropItem) (fs : List RawFile),
          collectFromItems items = Except.ok fs →
          (∀ f ∈ fs, notHidden f = true → isSvg f = true →
            ∃ t, f.textContent = Except.ok t) →
          ∃ ps, processFilesE items = Except.ok ps) := by
  intro assets n
  refine ⟨?_, ?_, ?_⟩
  · have h := (buildRegistry_keys_aux assets ⟨[], []⟩ n).1
    unfold buildRegistry
    rw [h]
    simp [mapGet]
  · have h := (buildRegistry_keys_aux assets ⟨[], []⟩ n).2
    unfold buildRegistry
    rw [h]
    simp [mapGet]
  · intro items fs hfs hdocs
    have hall : ∀ f ∈ (fs.filter notHidden).filter isSvg,
        ∃ b, readDocument f = Except.ok b := by
      intro f hf
      rcases List.mem_filter.mp hf with ⟨hf1, hsvg⟩
      rcases List.mem_filter.mp hf1 with ⟨hf0, hnh⟩
      rcases hdocs f hf0 hnh hsvg with ⟨t, ht⟩
      refine ⟨⟨f.name, 0⟩, ?_⟩
      unfold readDocument
      rw [ht]
    rcases exMapM_ok readDocument _ hall with ⟨bs, hbs⟩
    refine ⟨sequencePages bs, ?_⟩
    unfold processFilesE
    rw [hfs]
    simp only [hbs]

/-- C8 witness: one failing and one succeeding asset plus one readable
document; the failing asset is in neither map, the succeeding one is in
both, and the pipeline still succeeds. -/
theorem assetRegistry_lenient_witness :
    ¬((mapGet (buildRegistry [badAsset, goodAsset]).exact "broken.png").isSome = true)
    ∧ (mapGet (buildRegistry [badAsset, goodAsset]).exact "good.png").isSome = true
    ∧ ∃ ps, processFilesE [DropItem.plainFile badAsset, DropItem.plainFile goodSvg]
        = Except.ok ps := by
  refine ⟨?_, ?_, ?_⟩
  · intro h
    rcases (assetRegistry_lenient [badAsset, goodAsset] "broken.png").1.mp h
      with ⟨f, hf, ⟨u, hu⟩, hn⟩
    rcases List.mem_cons.mp hf with rfl | hf'
    · cases hu
    · rcases List.mem_cons.mp hf' with rfl | hf''
      · exact absurd hn (by decide)
      · simp at hf''
  · exact (assetRegistry_lenient [badAsset, goodAsset] "good.png").2.1.mpr
      ⟨goodAsset, List.mem_cons_of_mem _ (List.mem_cons_self _ _),
        ⟨"data:image/png;base64,ZZ", rfl⟩, rfl⟩
  · refine (assetRegistry_lenient [] "x").2.2
      [DropItem.plainFile badAsset, DropItem.plainFile goodSvg]
      [badAsset, goodSvg] rfl ?_
    intro f hf hnh hsvg
    rcases List.mem_cons.mp hf with rfl | hf'
    · exact absurd hsvg (by decide)
    · rcases List.mem_cons.mp hf' with rfl | hf''
      · exact ⟨"<svg/>", rfl⟩
      · simp at hf''
/-! ## Redaction: attribute lemmas -/

theorem getAttr_map_replace (k v : String) :
    ∀ a : List (String × String), a.any (fun p => p.1 == k) = true →
      getAttr (a.map (fun p => if p.1 == k then (k, v) else p)) k = some v
  | [], h => by simp at h
  | p :: ps, h => by
    simp only [List.map_cons]
    unfold getAttr
    by_cases hp : (p.1 == k) = true
    · rw [if_pos hp]
      simp [List.find?_cons]
    · rw [if_neg hp]
      simp only [List.any_cons, Bool.or_eq_true] at h
      rcases h with h | h
      · exact absurd h hp
      · have ih := getAttr_map_replace k v ps h
        unfold getAttr at ih
        simp only [List.find?_cons, hp]
        exact ih

theorem getAttr_append_single (k v : String) :
    ∀ a : List (String × String), a.any (fun p => p.1 == k) = false →
      getAttr (a ++ [(k, v)]) k = some v
  | [], _ => by simp [getAttr, List.find?_cons]
  | p :: ps, h => by
    simp only [List.any_cons, Bool.or_eq_false_iff] at h
    simp only [List.cons_append]
    unfold getAttr
    simp only [List.find?_cons, h.1]
    have ih := getAttr_append_single k v ps h.2
    unfold getAttr at ih
    exact ih

theorem getAttr_setAttr_self (a : List (String × String)) (k v : String) :
    getAttr (setAttr a k v) k = some v := by
  unfold setAttr
  by_cases hmem : a.any (fun p => p.1 == k) = true
  · rw [if_pos hmem]
    exact getAttr_map_replace k v a hmem
  · rw [if_neg hmem]
    refine getAttr_append_single k v a ?_
    rcases Bool.eq_false_or_eq_true (a.any (fun p => p.1 == k)) with h | h
    · exact absurd h hmem
    · exact h

theorem getAttr_map_replace_other {k k' : String} (hne : ¬ k' = k) (v : String) :
    ∀ a : List (String × String),
      getAttr (a.map (fun p => if p.1 == k then (k, v) else p)) k' = getAttr a k'
  | [] => rfl
  | p :: ps => by
    have hkk : (k == k') = false := by
      simp only [beq_eq_false_iff_ne, ne_eq]
      intro hc
      exact hne hc.symm
    simp only [List.map_cons]
    unfold getAttr
    by_cases hp : (p.1 == k) = true
    · rw [if_pos hp]
      have hpk : (p.1 == k') = false := by
        rw [beq_iff_eq.mp hp]
        exact hkk
      simp only [List.find?_cons, hkk, hpk]
      have ih := getAttr_map_replace_other hne v ps
      unfold getAttr at ih
      exact ih
    · rw [if_neg hp]
      simp only [List.find?_cons]
      by_cases hpk : (p.1 == k') = true
      · simp [hpk]
      · simp only [hpk]
        have ih := getAttr_map_replace_other hne v ps
        unfold getAttr at ih
        exact ih

theorem getAttr_append_single_other {k k' : String} (hne : ¬ k' = k) (v : String) :
    ∀ a : List (String × String), getAttr (a ++ [(k, v)]) k' = getAttr a k'
  | [] => by
    have hkk : (k == k') = false := by
      simp only [beq_eq_false_iff_ne, ne_eq]
      intro hc
      exact hne hc.symm
    simp [getAttr, List.find?_cons, hkk]
  | p :: ps => by
    simp only [List.cons_append]
    unfold getAttr
    simp only [List.find?_cons]
    by_cases hpk : (p.1 == k') = true
    · simp [hpk]
    · simp only [hpk]
      have ih := getAttr_append_single_other hne v ps
      unfold getAttr at ih
      exact ih

theorem getAttr_setAttr_other {k k' : String} (hne : ¬ k' = k)
    (a : List (String × String)) (v : String) :
    getAttr (setAttr a k v) k' = getAttr a k' := by
  unfold setAttr
  by_cases hmem : a.any (fun p => p.1 == k) = true
  · rw [if_pos hmem]
    exact getAttr_map_replace_other hne v a
  · rw [if_neg hmem]
    exact getAttr_append_single_other hne v a

theorem getAttr_blurAttrs_filter (fid : String) (a : List (String × String)) :
    getAttr (blurAttrs fid a) "filter" = some (urlRef fid) := by
  unfold blurAttrs
  rw [getAttr_setAttr_other (by decide), getAttr_setAttr_self]

theorem getAttr_blurAttrs_tags (fid : String) (a : List (String × String)) :
    getAttr (blurAttrs fid a) "data-tags" = getAttr a "data-tags" := by
  unfold blurAttrs
  rw [getAttr_setAttr_other (by decide), getAttr_setAttr_other (by decide)]

theorem hasRedactTag_blurAttrs (fid : String) (a : List (String × String)) :
    hasRedactTag (blurAttrs fid a) = hasRedactTag a := by
  unfold hasRedactTag
  rw [getAttr_blurAttrs_tags]
/-! ## Redaction: string lemmas -/

theorem redactChar_blocky (c : Char) :
    (jsWhitespace (if jsWhitespace c then c else blockChar)
      || ((if jsWhitespace c then c else blockChar) == blockChar)) = true := by
  by_cases h : jsWhitespace c = true
  · simp [h]
  · simp only [h, Bool.false_eq_true, if_false]
    simp

theorem redactString_blocky (s : String) : blockyStr (redactString s) = true := by
  unfold blockyStr redactString
  simp only [List.all_map]
  apply List.all_eq_true.mpr
  intro c _
  exact redactChar_blocky c

theorem blocky_chars_fixed :
    ∀ l : List Char, l.all (fun c => jsWhitespace c || c == blockChar) = true →
      l.map (fun c => if jsWhitespace c then c else blockChar) = l
  | [], _ => rfl
  | c :: cs, h => by
    simp only [List.all_cons, Bool.and_eq_true] at h
    have h1 := h.1
    simp only [List.map_cons, blocky_chars_fixed cs h.2]
    by_cases hw : jsWhitespace c = true
    · rw [if_pos hw]
    · rw [if_neg hw]
      simp only [hw, Bool.false_or] at h1
      rw [beq_iff_eq.mp h1]

theorem blocky_fixed {s : String} (h : blockyStr s = true) : redactString s = s := by
  unfold redactString
  unfold blockyStr at h
  rw [blocky_chars_fixed s.data h]

theorem redactString_spec (s : String) :
    (redactString s).length = s.length
    ∧ wsCount (redactString s) = wsCount s
    ∧ (∀ (i : Nat) (c : Char), s.data[i]? = some c →
        (redactString s).data[i]? = some (if jsWhitespace c then c else blockChar)) := by
  refine ⟨?_, ?_, ?_⟩
  · simp only [redactString, String.length, List.length_map]
  · unfold wsCount redactString
    simp only [List.countP_map]
    apply List.countP_congr
    intro c _
    by_cases hw : jsWhitespace c = true
    · simp [Function.comp, hw]
    · have hb : jsWhitespace blockChar = false := by decide
      simp [Function.comp, hw, hb]
  · intro i c hc
    unfold redactString
    simp only [List.getElem?_map, hc, Option.map_some']

/-! ## Redaction: structural tree lemmas -/

mutual
theorem allTexts_rTN : ∀ t : XNode,
    allTexts (redactTextNodes t) = (allTexts t).map redactString
  | .text s => by simp [redactTextNodes, allTexts]
  | .elem n a cs => by
    simp only [redactTextNodes, allTexts, allTextsList_rTN cs]
theorem allTextsList_rTN : ∀ l : List XNode,
    allTextsList (redactTextNodesList l) = (allTextsList l).map redactString
  | [] => rfl
  | c :: cs => by
    simp only [redactTextNodesList, allTextsList, allTexts_rTN c, allTextsList_rTN cs,
      List.map_append]
end

mutual
theorem allTexts_mapImages : ∀ (fid : String) (t : XNode),
    allTexts (mapImages fid t) = allTexts t
  | _, .text s => rfl
  | fid, .elem n a cs => by
    simp only [mapImages, allTexts, allTextsList_mapImages fid cs]
theorem allTextsList_mapImages : ∀ (fid : String) (l : List XNode),
    allTextsList (mapImagesList fid l) = allTextsList l
  | _, [] => rfl
  | fid, c :: cs => by
    simp only [mapImagesList, allTextsList, allTexts_mapImages fid c,
      allTextsList_mapImages fid cs]
end

mutual
theorem blocky_eq_allTexts : ∀ t : XNode,
    allTextsBlocky t = (allTexts t).all blockyStr
  | .text s => by simp [allTextsBlocky, allTexts]
  | .elem n a cs => by
    simp only [allTextsBlocky, allTexts, blockyList_eq_allTexts cs]
theorem blockyList_eq_allTexts : ∀ l : List XNode,
    allTextsBlockyList l = (allTextsList l).all blockyStr
  | [] => rfl
  | c :: cs => by
    simp only [allTextsBlockyList, allTextsList, blocky_eq_allTexts c,
      blockyList_eq_allTexts cs, List.all_append]
end

theorem blockyList_rTN (l : List XNode) :
    allTextsBlockyList (redactTextNodesList l) = true := by
  rw [blockyList_eq_allTexts, allTextsList_rTN]
  simp only [List.all_map]
  apply List.all_eq_true.mpr
  intro s _
  exact redactString_blocky s

mutual
theorem taggedTexts_true : ∀ t : XNode, taggedTexts true t = allTexts t
  | .text s => rfl
  | .elem n a cs => by
    simp only [taggedTexts, allTexts, Bool.true_or, taggedTextsList_true cs]
theorem taggedTextsList_true : ∀ l : List XNode, taggedTextsList true l = allTextsList l
  | [] => rfl
  | c :: cs => by
    simp only [taggedTextsList, allTextsList, taggedTexts_true c, taggedTextsList_true cs]
end

theorem taggedTextsList_append (b : Bool) :
    ∀ l1 l2 : List XNode,
      taggedTextsList b (l1 ++ l2) = taggedTextsList b l1 ++ taggedTextsList b l2
  | [], l2 => rfl
  | c :: cs, l2 => by
    rw [List.cons_append]
    simp only [taggedTextsList]
    rw [taggedTextsList_append b cs l2, List.append_assoc]

theorem childIsFilter_rTN (fid : String) :
    ∀ t : XNode, childIsFilter fid (redactTextNodes t) = childIsFilter fid t
  | .text s => rfl
  | .elem n a cs => rfl

theorem childIsFilter_mapImages (fid : String) :
    ∀ t : XNode, childIsFilter fid (mapImages fid t) = childIsFilter fid t
  | .text s => rfl
  | .elem n a cs => by
    simp only [mapImages, childIsFilter]
    by_cases hn : (n == "image") = true
    · have : n = "image" := beq_iff_eq.mp hn
      subst this
      simp
    · rw [if_neg hn]

theorem anyCIF_rTNList (fid : String) :
    ∀ l : List XNode, (redactTextNodesList l).any (childIsFilter fid)
      = l.any (childIsFilter fid)
  | [] => rfl
  | c :: cs => by
    simp only [redactTextNodesList, List.any_cons, childIsFilter_rTN fid c,
      anyCIF_rTNList fid cs]

theorem anyCIF_mapImagesList (fid : String) :
    ∀ l : List XNode, (mapImagesList fid l).any (childIsFilter fid)
      = l.any (childIsFilter fid)
  | [] => rfl
  | c :: cs => by
    simp only [mapImagesList, List.any_cons, childIsFilter_mapImages fid c,
      anyCIF_mapImagesList fid cs]

mutual
theorem hfd_rTN : ∀ (fid : String) (t : XNode),
    hasFilterDef fid (redactTextNodes t) = hasFilterDef fid t
  | _, .text s => rfl
  | fid, .elem n a cs => by
    simp only [redactTextNodes, hasFilterDef, anyCIF_rTNList fid cs,
      hfdList_rTN fid cs]
theorem hfdList_rTN : ∀ (fid : String) (l : List XNode),
    hasFilterDefList fid (redactTextNodesList l) = hasFilterDefList fid l
  | _, [] => rfl
  | fid, c :: cs => by
    simp only [redactTextNodesList, hasFilterDefList, hfd_rTN fid c, hfdList_rTN fid cs]
end

mutual
theorem hfd_mapImages : ∀ (fid : String) (t : XNode),
    hasFilterDef fid (mapImages fid t) = hasFilterDef fid t
  | _, .text s => rfl
  | fid, .elem n a cs => by
    simp only [mapImages, hasFilterDef, anyCIF_mapImagesList fid cs,
      hfdList_mapImages fid cs]
theorem hfdList_mapImages : ∀ (fid : String) (l : List XNode),
    hasFilterDefList fid (mapImagesList fid l) = hasFilterDefList fid l
  | _, [] => rfl
  | fid, c :: cs => by
    simp only [mapImagesList, hasFilterDefList, hfd_mapImages fid c,
      hfdList_mapImages fid cs]
end

mutual
theorem imgref_mapImages : ∀ (fid : String) (t : XNode),
    allImagesRef fid (mapImages fid t) = true
  | _, .text s => rfl
  | fid, .elem n a cs => by
    simp only [mapImages, allImagesRef, imgrefList_mapImages fid cs, Bool.and_true]
    by_cases hn : (n == "image") = true
    · simp [hn, getAttr_blurAttrs_filter fid a]
    · simp [hn]
theorem imgrefList_mapImages : ∀ (fid : String) (l : List XNode),
    allImagesRefList fid (mapImagesList fid l) = true
  | _, [] => rfl
  | fid, c :: cs => by
    simp only [mapImagesList, allImagesRefList, imgref_mapImages fid c,
      imgrefList_mapImages fid cs, Bool.and_self]
end

mutual
theorem imgref_rTN : ∀ (fid : String) (t : XNode),
    allImagesRef fid (redactTextNodes t) = allImagesRef fid t
  | _, .text s => rfl
  | fid, .elem n a cs => by
    simp only [redactTextNodes, allImagesRef, imgrefList_rTN fid cs]
theorem imgrefList_rTN : ∀ (fid : String) (l : List XNode),
    allImagesRefList fid (redactTextNodesList l) = allImagesRefList fid l
  | _, [] => rfl
  | fid, c :: cs => by
    simp only [redactTextNodesList, allImagesRefList, imgref_rTN fid c,
      imgrefList_rTN fid cs]
end
/-! ## Redaction: sweep unfolding lemmas -/

theorem redactPass_text (fid s : String) : redactPass fid (.text s) = .text s := by
  simp [redactPass]

theorem redactPass_untagged {fid n : String} {a : List (String × String)}
    {cs : List XNode} (ht : hasRedactTag a = false) :
    redactPass fid (.elem n a cs) = .elem n a (redactPassList fid cs) := by
  simp only [redactPass]
  split
  · next n' a' cs' heq =>
    rw [ht] at heq
    simp only [Bool.false_eq_true, if_false, XNode.elem.injEq] at heq
    obtain ⟨rfl, rfl, rfl⟩ := heq
    rfl
  · next s heq =>
    rw [ht] at heq
    simp at heq

theorem redactPass_tagged_image {fid n : String} {a : List (String × String)}
    {cs : List XNode} (ht : hasRedactTag a = true)
    (hi : (jsToLower n == "image") = true) :
    redactPass fid (.elem n a cs)
      = .elem n (blurAttrs fid a) (redactPassList fid (redactTextNodesList cs)) := by
  simp only [redactPass, applyRedactEl]
  split
  · next n' a' cs' heq =>
    rw [ht, hi] at heq
    simp only [if_true, redactTextNodes, XNode.elem.injEq] at heq
    obtain ⟨rfl, rfl, rfl⟩ := heq
    rfl
  · next s heq =>
    rw [ht, hi] at heq
    simp [redactTextNodes] at heq

theorem redactPass_tagged_nonimage {fid n : String} {a : List (String × String)}
    {cs : List XNode} (ht : hasRedactTag a = true)
    (hi : (jsToLower n == "image") = false) :
    redactPass fid (.elem n a cs)
      = .elem n a (redactPassList fid (redactTextNodesList (mapImagesList fid cs))) := by
  simp only [redactPass, applyRedactEl]
  split
  · next n' a' cs' heq =>
    rw [ht, hi] at heq
    simp only [if_true, Bool.false_eq_true, if_false, redactTextNodes,
      XNode.elem.injEq] at heq
    obtain ⟨rfl, rfl, rfl⟩ := heq
    rfl
  · next s heq =>
    rw [ht, hi] at heq
    simp [redactTextNodes] at heq
/-! ## Redaction: the sweep postcondition -/

theorem map_redactString_id : ∀ {L : List String}, L.all blockyStr = true →
    L.map redactString = L
  | [], _ => rfl
  | t :: ts, h => by
    simp only [List.all_cons, Bool.and_eq_true] at h
    simp only [List.map_cons, blocky_fixed h.1, map_redactString_id h.2]

theorem cif_pass (fid : String) : ∀ t : XNode, childIsFilter fid t = true →
    childIsFilter fid (redactPass fid t) = true
  | .text _, h => by simp [childIsFilter] at h
  | .elem n2 a2 cs2, h => by
    simp only [childIsFilter, Bool.and_eq_true] at h
    have hn : n2 = "filter" := beq_iff_eq.mp h.1
    subst hn
    by_cases ht2 : hasRedactTag a2 = true
    · rw [redactPass_tagged_nonimage ht2 (by decide)]
      simp only [childIsFilter, Bool.and_eq_true]
      exact ⟨by decide, h.2⟩
    · rw [redactPass_untagged (by
        rcases Bool.eq_false_or_eq_true (hasRedactTag a2) with h2 | h2
        · exact absurd h2 ht2
        · exact h2)]
      simp only [childIsFilter, Bool.and_eq_true]
      exact ⟨by decide, h.2⟩

theorem anyCIF_passList (fid : String) : ∀ l : List XNode,
    l.any (childIsFilter fid) = true →
    (redactPassList fid l).any (childIsFilter fid) = true
  | [], h => by simp at h
  | c :: cs, h => by
    simp only [List.any_cons, Bool.or_eq_true] at h
    simp only [redactPassList, List.any_cons, Bool.or_eq_true]
    rcases h with h | h
    · exact Or.inl (cif_pass fid c h)
    · exact Or.inr (anyCIF_passList fid cs h)

theorem nodeCount_mem : ∀ {c : XNode} {l : List XNode}, c ∈ l →
    nodeCount c ≤ nodeCountList l := by
  intro c l
  induction l with
  | nil => intro h; cases h
  | cons hd tl ih =>
    intro h
    rcases List.mem_cons.mp h with rfl | h'
    · simp only [nodeCountList]
      exact Nat.le_add_right _ _
    · have := ih h'
      simp only [nodeCountList]
      omega

theorem passPostList_of_bounded (fid : String) :
    ∀ l : List XNode, (∀ c : XNode, nodeCount c ≤ nodeCountList l → PassPost fid c) →
      PassPostList fid l
  | [], _ => by
    unfold PassPostList
    have h0 : redactPassList fid [] = [] := by simp [redactPassList]
    rw [h0]
    exact ⟨fun _ => rfl, fun h => h, fun h => h, rfl, rfl⟩
  | c :: cs, hb => by
    have hone : nodeCount c ≤ nodeCountList (c :: cs) := by
      simp only [nodeCountList]
      exact Nat.le_add_right _ _
    have hc := hb c hone
    have hcs : PassPostList fid cs := by
      refine passPostList_of_bounded fid cs (fun x hx => hb x ?_)
      simp only [nodeCountList]
      omega
    unfold PassPost at hc
    unfold PassPostList at hcs ⊢
    obtain ⟨h1, h2, h3, h4, h5⟩ := hc
    obtain ⟨l1, l2, l3, l4, l5⟩ := hcs
    refine ⟨?_, ?_, ?_, ?_, ?_⟩
    · intro hbl
      simp only [allTextsBlockyList, Bool.and_eq_true] at hbl
      simp only [redactPassList, allTextsList, h1 hbl.1, l1 hbl.2]
    · intro him
      simp only [allImagesRefList, Bool.and_eq_true] at him
      simp only [redactPassList, allImagesRefList, h2 him.1, l2 him.2, Bool.and_self]
    · intro hfd
      simp only [hasFilterDefList, Bool.or_eq_true] at hfd
      simp only [redactPassList, hasFilterDefList, Bool.or_eq_true]
      rcases hfd with hfd | hfd
      · exact Or.inl (h3 hfd)
      · exact Or.inr (l3 hfd)
    · simp only [redactPassList, redactionOKList, h4, l4, Bool.and_self]
    · simp only [redactPassList, taggedTextsList, h5, l5, List.map_append]

theorem passPost_all : ∀ (fid : String) (t : XNode), PassPost fid t
  | fid, .text s => by
    unfold PassPost
    rw [redactPass_text]
    exact ⟨fun _ => rfl, fun h => h, fun h => h, rfl, rfl⟩
  | fid, .elem n a cs => by
    have hlist : ∀ l : List XNode, nodeCountList l ≤ nodeCountList cs →
        PassPostList fid l := by
      intro l hl
      refine passPostList_of_bounded fid l (fun c hc => passPost_all fid c)
    by_cases ht : hasRedactTag a = true
    · by_cases hi : (jsToLower n == "image") = true
      · -- tagged image element
        have hP := hlist (redactTextNodesList cs)
          (by rw [nodeCountList_redactTN])
        unfold PassPostList at hP
        obtain ⟨p1, p2, p3, p4, p5⟩ := hP
        have hblk : allTextsBlockyList (redactTextNodesList cs) = true :=
          blockyList_rTN cs
        have htexts : allTextsList (redactPassList fid (redactTextNodesList cs))
            = (allTextsList cs).map redactString := by
          rw [p1 hblk, allTextsList_rTN]
        unfold PassPost
        rw [redactPass_tagged_image ht hi]
        refine ⟨?_, ?_, ?_, ?_, ?_⟩
        · intro hbl
          simp only [allTextsBlocky] at hbl
          simp only [allTexts, htexts]
          rw [map_redactString_id (by rw [← blockyList_eq_allTexts]; exact hbl)]
        · intro him
          simp only [allImagesRef, Bool.and_eq_true] at him ⊢
          refine ⟨?_, ?_⟩
          · by_cases hn : (n == "image") = true
            · simp [hn, getAttr_blurAttrs_filter fid a]
            · simp [hn]
          · refine p2 ?_
            rw [imgrefList_rTN]
            exact him.2
        · intro hfd
          simp only [hasFilterDef, Bool.or_eq_true, Bool.and_eq_true] at hfd ⊢
          rcases hfd with ⟨hdefs, hany⟩ | hfd
          · refine Or.inl ⟨hdefs, ?_⟩
            refine anyCIF_passList fid _ ?_
            rw [anyCIF_rTNList]
            exact hany
          · refine Or.inr ?_
            refine p3 ?_
            rw [hfdList_rTN]
            exact hfd
        · simp only [redactionOK]
          rw [hasRedactTag_blurAttrs, ht]
          simp only [if_true, hi]
          rw [getAttr_blurAttrs_filter]
          have hblk2 : allTextsBlockyList
              (redactPassList fid (redactTextNodesList cs)) = true := by
            rw [blockyList_eq_allTexts, p1 hblk, ← blockyList_eq_allTexts]
            exact hblk
          simp [hblk2, p4]
        · simp only [taggedTexts]
          rw [hasRedactTag_blurAttrs, ht]
          simp only [Bool.or_true]
          rw [taggedTextsList_true, htexts, taggedTextsList_true]
      · -- tagged non-image element
        have hif : (jsToLower n == "image") = false := by
          rcases Bool.eq_false_or_eq_true (jsToLower n == "image") with h2 | h2
          · exact absurd h2 hi
          · exact h2
        have hcount : nodeCountList (redactTextNodesList (mapImagesList fid cs))
            = nodeCountList cs := by
          rw [nodeCountList_redactTN, nodeCountList_mapImages]
        have hP := hlist (redactTextNodesList (mapImagesList fid cs))
          (by rw [hcount])
        unfold PassPostList at hP
        obtain ⟨p1, p2, p3, p4, p5⟩ := hP
        have hblk : allTextsBlockyList (redactTextNodesList (mapImagesList fid cs))
            = true := blockyList_rTN _
        have htexts : allTextsList
            (redactPassList fid (redactTextNodesList (mapImagesList fid cs)))
            = (allTextsList cs).map redactString := by
          rw [p1 hblk, allTextsList_rTN, allTextsList_mapImages]
        have himg : allImagesRefList fid
            (redactPassList fid (redactTextNodesList (mapImagesList fid cs))) = true := by
          refine p2 ?_
          rw [imgrefList_rTN]
          exact imgrefList_mapImages fid cs
        unfold PassPost
        rw [redactPass_tagged_nonimage ht hif]
        refine ⟨?_, ?_, ?_, ?_, ?_⟩
        · intro hbl
          simp only [allTextsBlocky] at hbl
          simp only [allTexts, htexts]
          rw [map_redactString_id (by rw [← blockyList_eq_allTexts]; exact hbl)]
        · intro him
          simp only [allImagesRef, Bool.and_eq_true] at him ⊢
          exact ⟨him.1, himg⟩
        · intro hfd
          simp only [hasFilterDef, Bool.or_eq_true, Bool.and_eq_true] at hfd ⊢
          rcases hfd with ⟨hdefs, hany⟩ | hfd
          · refine Or.inl ⟨hdefs, ?_⟩
            refine anyCIF_passList fid _ ?_
            rw [anyCIF_rTNList, anyCIF_mapImagesList]
            exact hany
          · refine Or.inr ?_
            refine p3 ?_
            rw [hfdList_rTN, hfdList_mapImages]
            exact hfd
        · simp only [redactionOK, ht, if_true, hif, Bool.false_eq_true, if_false]
          have hblk2 : allTextsBlockyList
              (redactPassList fid (redactTextNodesList (mapImagesList fid cs)))
              = true := by
            rw [blockyList_eq_allTexts, p1 hblk, ← blockyList_eq_allTexts]
            exact hblk
          simp [himg, hblk2, p4]
        · simp only [taggedTexts, ht, Bool.or_true]
          rw [taggedTextsList_true, htexts, taggedTextsList_true]
    · -- untagged element
      have htf : hasRedactTag a = false := by
        rcases Bool.eq_false_or_eq_true (hasRedactTag a) with h2 | h2
        · exact absurd h2 ht
        · exact h2
      have hP := hlist cs (Nat.le_refl _)
      unfold PassPostList at hP
      obtain ⟨p1, p2, p3, p4, p5⟩ := hP
      unfold PassPost
      rw [redactPass_untagged htf]
      refine ⟨?_, ?_, ?_, ?_, ?_⟩
      · intro hbl
        simp only [allTextsBlocky] at hbl
        simp only [allTexts]
        exact p1 hbl
      · intro him
        simp only [allImagesRef, Bool.and_eq_true] at him ⊢
        exact ⟨him.1, p2 him.2⟩
      · intro hfd
        simp only [hasFilterDef, Bool.or_eq_true, Bool.and_eq_true] at hfd ⊢
        rcases hfd with ⟨hdefs, hany⟩ | hfd
        · exact Or.inl ⟨hdefs, anyCIF_passList fid cs hany⟩
        · exact Or.inr (p3 hfd)
      · simp only [redactionOK, htf, Bool.false_eq_true, if_false, Bool.true_and]
        exact p4
      · simp only [taggedTexts, htf, Bool.or_false]
        exact p5
termination_by fid t => nodeCount t
decreasing_by
  simp only [nodeCount]
  omega
/-! ## Redaction: definitions container lemmas -/

theorem childIsFilter_filterNode (fid : String) :
    childIsFilter fid (filterNode fid) = true := by
  simp [childIsFilter, filterNode, getAttr, List.find?_cons]

mutual
theorem atfd_hfd : ∀ (fid : String) (t : XNode), findDefs t = true →
    hasFilterDef fid (appendToFirstDefs (filterNode fid) t) = true
  | fid, .text _, h => by simp [findDefs] at h
  | fid, .elem n a cs, h => by
    simp only [findDefs, Bool.or_eq_true] at h
    simp only [appendToFirstDefs]
    by_cases hn : (n == "defs") = true
    · rw [if_pos hn]
      simp only [hasFilterDef, Bool.or_eq_true, Bool.and_eq_true]
      refine Or.inl ⟨hn, ?_⟩
      simp [List.any_append, childIsFilter_filterNode]
    · rw [if_neg hn]
      rcases h with h | h
      · exact absurd h hn
      · simp only [hasFilterDef, Bool.or_eq_true]
        exact Or.inr (atfdList_hfd fid cs h)
theorem atfdList_hfd : ∀ (fid : String) (l : List XNode), findDefsList l = true →
    hasFilterDefList fid (appendToFirstDefsList (filterNode fid) l) = true
  | fid, [], h => by simp [findDefsList] at h
  | fid, c :: cs, h => by
    simp only [findDefsList, Bool.or_eq_true] at h
    simp only [appendToFirstDefsList]
    by_cases hc : findDefs c = true
    · rw [if_pos hc]
      simp only [hasFilterDefList, Bool.or_eq_true]
      exact Or.inl (atfd_hfd fid c hc)
    · rw [if_neg hc]
      rcases h with h | h
      · exact absurd h hc
      · simp only [hasFilterDefList, Bool.or_eq_true]
        exact Or.inr (atfdList_hfd fid cs h)
end

theorem taggedTexts_filterNode (b : Bool) (fid : String) :
    taggedTexts b (filterNode fid) = [] := by
  simp [filterNode, feGaussianNode, taggedTexts, taggedTextsList]

mutual
theorem atfd_texts : ∀ (fid : String) (b : Bool) (t : XNode),
    taggedTexts b (appendToFirstDefs (filterNode fid) t) = taggedTexts b t
  | fid, b, .text s => rfl
  | fid, b, .elem n a cs => by
    simp only [appendToFirstDefs]
    by_cases hn : (n == "defs") = true
    · rw [if_pos hn]
      simp only [taggedTexts]
      rw [taggedTextsList_append]
      simp only [taggedTextsList]
      rw [taggedTexts_filterNode]
      simp
    · rw [if_neg hn]
      simp only [taggedTexts]
      rw [atfdList_texts fid _ cs]
theorem atfdList_texts : ∀ (fid : String) (b : Bool) (l : List XNode),
    taggedTextsList b (appendToFirstDefsList (filterNode fid) l) = taggedTextsList b l
  | fid, b, [] => rfl
  | fid, b, c :: cs => by
    simp only [appendToFirstDefsList]
    by_cases hc : findDefs c = true
    · rw [if_pos hc]
      simp only [taggedTextsList]
      rw [atfd_texts fid b c]
    · rw [if_neg hc]
      simp only [taggedTextsList]
      rw [atfdList_texts fid b cs]
end

theorem taggedTexts_defsNode (b : Bool) (fid : String) :
    taggedTexts b (XNode.elem "defs" [] [filterNode fid]) = [] := by
  simp only [taggedTexts]
  simp only [taggedTextsList]
  rw [taggedTexts_filterNode]
  rfl

theorem ensureDefs_hfd (fid n : String) (a : List (String × String)) (cs : List XNode) :
    hasFilterDef fid (ensureDefsFilter fid (.elem n a cs)) = true := by
  unfold ensureDefsFilter
  by_cases hf : findDefs (XNode.elem n a cs) = true
  · rw [if_pos hf]
    exact atfd_hfd fid _ hf
  · rw [if_neg hf]
    simp only [hasFilterDef, hasFilterDefList, Bool.or_eq_true, Bool.and_eq_true]
    refine Or.inr (Or.inl (Or.inl ⟨by decide, ?_⟩))
    simp [childIsFilter_filterNode]

theorem ensureDefs_texts (fid : String) : ∀ t : XNode,
    taggedTexts false (ensureDefsFilter fid t) = taggedTexts false t := by
  intro t
  unfold ensureDefsFilter
  by_cases hf : findDefs t = true
  · rw [if_pos hf]
    exact atfd_texts fid false t
  · rw [if_neg hf]
    cases t with
    | text s => rfl
    | elem n a cs =>
      simp only [taggedTexts]
      simp only [taggedTextsList]
      rw [taggedTexts_defsNode]
      simp

/-- C9: after processing a document containing a redact-tagged element, a
definitions container holds the blur-filter definition under the generated
id; every redact-tagged element references the filter from itself when it
is an image and otherwise from all its descendant images, with all its
descendant text nodes fully redacted; the text nodes under tagged elements
are exactly the character-wise redactions of the input's, where each
non-whitespace character becomes U+25AE and whitespace stays in place, so
lengths and whitespace counts are unchanged. -/
theorem redaction_applied_spec :
    ∀ (fid : String) (root : XNode), needsFilterB root = true →
      hasFilterDef fid (processRedactions fid root) = true
      ∧ redactionOK fid (processRedactions fid root) = true
      ∧ taggedTexts false (processRedactions fid root)
          = (taggedTexts false root).map redactString
      ∧ (∀ s : String, (redactString s).length = s.length
          ∧ wsCount (redactString s) = wsCount s
          ∧ ∀ (i : Nat) (c : Char), s.data[i]? = some c →
              (redactString s).data[i]? = some (if jsWhitespace c then c else blockChar)) := by
  intro fid root h
  have hp := passPost_all fid (ensureDefsFilter fid root)
  unfold PassPost at hp
  obtain ⟨p1, p2, p3, p4, p5⟩ := hp
  unfold processRedactions
  rw [if_pos h]
  refine ⟨?_, p4, ?_, fun s => redactString_spec s⟩
  · refine p3 ?_
    cases root with
    | text s => simp [needsFilterB] at h
    | elem n a cs => exact ensureDefs_hfd fid n a cs
  · rw [p5, ensureDefs_texts]

/-- C9 witness. -/
theorem redaction_applied_spec_witness :
    hasFilterDef "redact-blur-1" (processRedactions "redact-blur-1" redactSampleRoot)
      = true
    ∧ redactionOK "redact-blur-1" (processRedactions "redact-blur-1" redactSampleRoot)
      = true :=
  ⟨(redaction_applied_spec "redact-blur-1" redactSampleRoot (by decide)).1,
   (redaction_applied_spec "redact-blur-1" redactSampleRoot (by decide)).2.1⟩

end BookPipeline
